import Mathlib

/-!
# Verification of the time-steward engine specification against its source

This development gives a shallow embedding, in Lean 4, of the core data
structures and operations of the `time-steward` Rust library (the
`ValidSince` ordering of `api.rs`, the identifier audit of
`list_of_types.rs`, the field store, snapshot, scheduler and fiat-event
façade of `stewards/memoized_flat.rs`, and the field-history reads of
`stewards/amortized/types.rs`), and proves or refutes the frozen claims
about them.

Machine integers are modelled as `Int`/`Nat` (base times are `Int`, as in
the integer-time examples; overflow does not arise in the modelled code
paths).  Hash maps keyed by `FieldId` or by identifiers are modelled as
association lists with first-match lookup; `BTreeMap`s are modelled as
association lists together with explicit minimum-key selection, which is
the only way the modelled code observes their ordering.
-/

/-! ## Ordering of `ValidSince` (src/src/api.rs, lines 366-426)

`ValidSince<BaseTime> ∈ {TheBeginning, Before(t), After(t)}`.  The code
orders two `ValidSince` values with a hand-written `cmp`, and compares a
`ValidSince` against a bare time with hand-written `PartialOrd<T>` /
`PartialEq<T>` instances.  Base time is taken to be `Int` (the integer
instantiation used throughout the repository's tests). -/

inductive ValidSince (T : Type) where
  | TheBeginning : ValidSince T
  | Before : T → ValidSince T
  | After : T → ValidSince T
deriving DecidableEq, Repr

/-- Rust's `Ord::cmp` for an integer base time. -/
def cmpInt (a b : Int) : Ordering :=
  if a < b then .lt else if a = b then .eq else .gt

namespace ValidSince

/-- `impl<T: Ord> Ord for ValidSince<T>` (api.rs lines 366-394), at `T = Int`. -/
def cmp : ValidSince Int → ValidSince Int → Ordering
  | .TheBeginning, .TheBeginning => .eq
  | .TheBeginning, _ => .lt
  | _, .TheBeginning => .gt
  | .Before a, .Before b => cmpInt a b
  | .After a, .After b => cmpInt a b
  | .Before a, .After b => if a ≤ b then .lt else .gt
  | .After a, .Before b => if a < b then .lt else .gt

/-- `impl<T: Ord> PartialOrd<T> for ValidSince<T>` (api.rs lines 401-421):
comparison of a `ValidSince` against a bare time, at `T = Int`. -/
def cmpT : ValidSince Int → Int → Ordering
  | .TheBeginning, _ => .lt
  | .Before a, t => if a ≤ t then .lt else .gt
  | .After a, t => if a < t then .lt else .gt

/-- `impl<T> PartialEq<T> for ValidSince<T>` (api.rs lines 395-399):
a `ValidSince` never equals a bare time. -/
def eqT : ValidSince Int → Int → Bool := fun _ _ => false

/-- The strict order induced by `cmp`. -/
def lt (a b : ValidSince Int) : Prop := cmp a b = .lt

instance (a b : ValidSince Int) : Decidable (lt a b) := by
  unfold lt; infer_instance

end ValidSince

/-- Characterization of the strict order on `ValidSince Int`, used to
organize the case analysis. -/
def ValidSince.ltChar : ValidSince Int → ValidSince Int → Prop
  | .TheBeginning, .TheBeginning => False
  | .TheBeginning, _ => True
  | _, .TheBeginning => False
  | .Before a, .Before b => a < b
  | .After a, .After b => a < b
  | .Before a, .After b => a ≤ b
  | .After a, .Before b => a < b

/-! ## Identifier audit (src/src/implementation_support/list_of_types.rs, lines 306-348)

`audit_basics::<B>()` walks `B::IncludedTypes` three times — all columns,
then all events, then all predictors — inserting each type's 64-bit
identifier into one shared `HashMap<u64, u32>` keyed by the raw id and
valued by the kind (0 = column, 1 = event, 2 = predictor).  `insert_id`
panics when `id <= 9000` or when the map already held the id; after
inserting a predictor's id, the audit panics unless the predictor's
watched column id is already mapped to kind 0.  Panics are modelled as
`none`; a `Basics`' `IncludedTypes` is modelled as the list of column
ids, the list of event ids, and the list of `(predictor id, watched
column id)` pairs. -/

/-- First-match lookup in the audit table (the `HashMap<u64, u32>`). -/
def idLookup : List (Nat × Nat) → Nat → Option Nat
  | [], _ => none
  | (k, v) :: rest, id => if k = id then some v else idLookup rest id

/-- `Table::insert_id` (list_of_types.rs lines 311-318): panic (`none`) when
the id is in the reserved window or already present. -/
def insertId (id traitidx : Nat) (t : List (Nat × Nat)) : Option (List (Nat × Nat)) :=
  if id ≤ 9000 then none
  else if (idLookup t id).isSome then none
  else some ((id, traitidx) :: t)

/-- Applying the audit to one kind's id list (`column_list::User` /
`event_list::User` impls for `Table`). -/
def auditIds (traitidx : Nat) : List Nat → List (Nat × Nat) → Option (List (Nat × Nat))
  | [], t => some t
  | id :: rest, t => (insertId id traitidx t).bind (auditIds traitidx rest)

/-- Applying the audit to the predictor list (`predictor_list::User` impl
for `Table`): insert the predictor's id with kind 2, then require the
watched column's id to be mapped to kind 0. -/
def auditPreds : List (Nat × Nat) → List (Nat × Nat) → Option (List (Nat × Nat))
  | [], t => some t
  | (pid, wcol) :: rest, t =>
    (insertId pid 2 t).bind fun t2 =>
      if idLookup t2 wcol = some 0 then auditPreds rest t2 else none

/-- `audit_basics` (list_of_types.rs lines 306-348): columns, then events,
then predictors, against one shared table; `true` means no panic. -/
def auditBasics (cols evs : List Nat) (preds : List (Nat × Nat)) : Bool :=
  ((auditIds 0 cols []).bind fun t1 =>
    (auditIds 1 evs t1).bind fun t2 =>
      auditPreds preds t2).isSome

/-! ## Extended times (src/src/api.rs, lines 142-148)

`ExtendedTime<B> = { base: B::Time, iteration: u32, id: TimeId }` with the
derived lexicographic order (`#[derive (PartialOrd, Ord)]` lists the
fields in that order).  Base time is `Int`; the 128-bit `TimeId` is
modelled as `Nat`. -/

structure ExtendedTime where
  base : Int
  iteration : Nat
  tid : Nat
deriving DecidableEq, Repr

namespace ExtendedTime

/-- The derived lexicographic order on `(base, iteration, id)`. -/
def key (t : ExtendedTime) : Lex (Int × Lex (Nat × Nat)) :=
  toLex (t.base, toLex (t.iteration, t.tid))

theorem key_injective : Function.Injective key := by
  rintro ⟨b1, i1, t1⟩ ⟨b2, i2, t2⟩ h
  simpa [key, Prod.ext_iff] using h

instance : LinearOrder ExtendedTime :=
  LinearOrder.lift' key key_injective

theorem lt_def {a b : ExtendedTime} :
    a < b ↔ a.base < b.base ∨ (a.base = b.base ∧
      (a.iteration < b.iteration ∨ (a.iteration = b.iteration ∧ a.tid < b.tid))) := by
  show key a < key b ↔ _
  rw [key, key, Prod.Lex.lt_iff]
  constructor
  · rintro (h | ⟨h1, h2⟩)
    · exact Or.inl h
    · rw [Prod.Lex.lt_iff] at h2
      exact Or.inr ⟨h1, h2⟩
  · rintro (h | ⟨h1, h2⟩)
    · exact Or.inl h
    · exact Or.inr ⟨h1, (Prod.Lex.lt_iff _ _).mpr h2⟩

theorem le_def {a b : ExtendedTime} : a ≤ b ↔ a < b ∨ a = b := by
  rw [le_iff_lt_or_eq]

end ExtendedTime

/-! ## Amortized field histories (src/src/stewards/amortized/types.rs)

`Field<B> = { last_change: ExtendedTime<B>, data: Option<FieldRc> }`
(lines 82-86); `data = None` records a deletion.  Opaque field values
(`FieldRc = Arc<Any>`) are modelled as `Nat`.  `FieldHistory` keeps the
time-sorted `changes` plus `first_snapshot_not_updated` (lines 94-98). -/

namespace Amortized

structure Field where
  last_change : ExtendedTime
  data : Option Nat
deriving DecidableEq, Repr

structure FieldHistory where
  changes : List Field
  first_snapshot_not_updated : Nat
deriving DecidableEq, Repr

/-- `slice::binary_search_by_key(&time, |change| &change.last_change)` on
`history.changes`, which the store keeps strictly sorted by `last_change`
(the only situation in which Rust specifies the result): `Ok i` when some
element carries the query key — `i` is then the unique such index, equal
to the number of elements with smaller key — and otherwise `Err` of the
insertion point. -/
def binarySearchByTime (changes : List Field) (time : ExtendedTime) : Except Nat Nat :=
  let lesser := changes.countP fun c => decide (c.last_change < time)
  if changes.any fun c => decide (c.last_change = time) then .ok lesser
  else .error lesser

/-- `usize` indexing after `wrapping_sub(1)`: index `-1` (i.e. wrapped
`usize::MAX`) is out of bounds of any real history, so `get` yields
`None`. -/
def listGetI (l : List Field) (i : Int) : Option Field :=
  if i < 0 then none else l[i.toNat]?

/-- The `index` local of `Fields::get_and_next` (types.rs lines 378-381):
the binary-search hit when `after` (inclusive), one slot back otherwise,
with `usize::wrapping_sub(1)` modelled as `Int` subtraction. -/
def searchIndex (changes : List Field) (time : ExtendedTime) (after : Bool) : Int :=
  match binarySearchByTime changes time with
  | .ok i => if after then (i : Int) else (i : Int) - 1
  | .error i => (i : Int) - 1

/-- `Fields::get_and_next` on one history (types.rs lines 372-389): binary
search, step back one slot unless an exact inclusive hit, and return the
located change's data together with the following change's time.  A
located change whose `data` is `None` (a recorded deletion) yields
`None`. -/
def getAndNext (changes : List Field) (time : ExtendedTime) (after : Bool) :
    Option ((Nat × ExtendedTime) × Option ExtendedTime) :=
  (listGetI changes (searchIndex changes time after)).bind fun change =>
    change.data.map fun data =>
      ((data, change.last_change),
       (listGetI changes (searchIndex changes time after + 1)).map (·.last_change))

/-- `field_states: HashMap<FieldId, FieldHistory>` as an association list
keyed by a `Nat`-encoded `FieldId`. -/
def FieldsMap := List (Nat × FieldHistory)

/-- First-match lookup, the model of `HashMap::get`. -/
def FieldsMap.lookup : FieldsMap → Nat → Option FieldHistory
  | [], _ => none
  | (k, v) :: rest, id => if k = id then some v else FieldsMap.lookup rest id

/-- `Fields::get_and_next` (types.rs lines 372-389): locate the history for
`id`, then search it. -/
def fieldsGetAndNext (fs : FieldsMap) (id : Nat) (time : ExtendedTime) (after : Bool) :
    Option ((Nat × ExtendedTime) × Option ExtendedTime) :=
  (fs.lookup id).bind fun history => getAndNext history.changes time after

/-- The qualifying predicate of C6: at-or-before the query time when
`after` (inclusive), strictly before it otherwise. -/
def qualifies (time : ExtendedTime) (after : Bool) (c : Field) : Bool :=
  if after then decide (c.last_change ≤ time) else decide (c.last_change < time)

/-- Specification-side selector: the stored change with the greatest
`last_change` at-or-before (`after`) or strictly before (`!after`) the
query time, on a history sorted by `last_change`. -/
def latestChangeAt (changes : List Field) (time : ExtendedTime) (after : Bool) :
    Option Field :=
  (changes.filter (qualifies time after)).getLast?

/-- Specification-side successor: the next stored change after the
selected one. -/
def nextChangeAfter (changes : List Field) (time : ExtendedTime) (after : Bool) :
    Option Field :=
  (changes.filter fun c => ! qualifies time after c).head?

/-- Modelled from the spec: `FieldHistory::previous_change_for_snapshot`
(invoked at types.rs line 399; its definition lives outside src/).  A
snapshot taken at base time `t` shows the state correct immediately
before `t`: the latest stored change with `last_change.base < t`, and
`None` when no such change exists or it is a recorded deletion. -/
def previousChangeForSnapshot (changes : List Field) (time : Int) :
    Option (Nat × ExtendedTime) :=
  ((changes.filter fun c => decide (c.last_change.base < time)).getLast?).bind
    fun c => c.data.map fun v => (v, c.last_change)

/-- `Fields::get_for_snapshot` (types.rs lines 390-402): reject histories
whose `first_snapshot_not_updated` exceeds the snapshot's index, else the
state just before the snapshot's time. -/
def getForSnapshot (fs : FieldsMap) (id : Nat) (time : Int) (index : Nat) :
    Option (Nat × ExtendedTime) :=
  (fs.lookup id).bind fun history =>
    if history.first_snapshot_not_updated > index then none
    else previousChangeForSnapshot history.changes time

end Amortized

/-! ## Generic association-list maps

`HashMap` / `BTreeMap` state is modelled as association lists with
first-match lookup.  The modelled code keeps keys unique (it inserts only
after a failed lookup, replaces in place, or removes by key), so
first-match lookup coincides with map lookup. -/

/-- `HashMap::get` / `BTreeMap::get`. -/
def alookup {κ α : Type} [DecidableEq κ] : List (κ × α) → κ → Option α
  | [], _ => none
  | (k, v) :: rest, key => if k = key then some v else alookup rest key

/-- In-place replacement of the value stored under an existing key. -/
def areplace {κ α : Type} [DecidableEq κ] (l : List (κ × α)) (key : κ) (v : α) :
    List (κ × α) :=
  l.map fun kv => if kv.1 = key then (key, v) else kv

/-- `HashMap::remove` / `BTreeMap::remove` (the remaining entries). -/
def aerase {κ α : Type} [DecidableEq κ] (l : List (κ × α)) (key : κ) : List (κ × α) :=
  l.filter fun kv => decide (kv.1 ≠ key)

/-! ## The memoized-flat store (src/src/stewards/memoized_flat.rs)

`Field` (lines 23-28) is `{ data: FieldRc, last_change: ExtendedTime,
first_snapshot_not_updated: SnapshotIdx }`; a `FieldId = (RowId,
ColumnId)` is modelled as a pair of `Nat`s; opaque values as `Nat`.
`changed_since_snapshots: BTreeMap<SnapshotIdx, Rc<insert_only::HashMap<
FieldId, (FieldRc, ExtendedTime)>>>` holds each live snapshot's
copy-on-write map, shared with the snapshot handle itself (the same `Rc`),
keyed by the snapshot's index; a snapshot is therefore modelled by its
index, and reads through it consult and update the registered map.
`insert_only::HashMap::get_default(key, f)` returns the present entry if
any, otherwise runs `f` and inserts its `Some` result; it never
overwrites. -/

namespace MemoizedFlat

/-- `FieldId { row_id, column_id }` (api.rs lines 70-82). -/
abbrev FieldId := Nat × Nat

structure Field where
  data : Nat
  last_change : ExtendedTime
  first_snapshot_not_updated : Nat
deriving DecidableEq, Repr

/-- One snapshot's copy-on-write map (`insert_only::HashMap<FieldId,
(FieldRc, ExtendedTime<B>)>`). -/
abbrev Cow := List (FieldId × (Nat × ExtendedTime))

/-- `insert_only::HashMap::get_default`: return the cached entry, else run
the closure and cache a `Some` result. -/
def cowGetDefault (cow : Cow) (id : FieldId) (fallback : Option (Nat × ExtendedTime)) :
    Option (Nat × ExtendedTime) × Cow :=
  match alookup cow id with
  | some v => (some v, cow)
  | none =>
    match fallback with
    | none => (none, cow)
    | some v => (some v, cow ++ [(id, v)])

/-- `Fields` (memoized_flat.rs lines 36-39). -/
structure Fields where
  field_states : List (FieldId × Field)
  changed_since_snapshots : List (Nat × Cow)
deriving DecidableEq, Repr

/-- `Field::update_snapshots` (memoized_flat.rs lines 205-216): walk the
registered snapshots from newest down while `index >=
first_snapshot_not_updated`, inserting the to-be-dropped `(data,
last_change)` into each copy-on-write map that lacks the field; since
`BTreeMap` iteration visits keys in order, the reverse walk with `break`
touches exactly the registered indices `>= first_snapshot_not_updated`. -/
def updateSnapshots (f : Field) (id : FieldId) (snaps : List (Nat × Cow)) :
    List (Nat × Cow) :=
  snaps.map fun ic =>
    if f.first_snapshot_not_updated ≤ ic.1 then
      (ic.1, (cowGetDefault ic.2 id (some (f.data, f.last_change))).2)
    else ic

/-- `Fields::set` (memoized_flat.rs lines 260-284): build the replacement
`Field` stamped with the current `next_snapshot`; on an occupied entry,
offer the old value to the snapshots, then replace; on a vacant entry just
insert.  Returns `true` when the field came into existence. -/
def fieldsSet (fs : Fields) (id : FieldId) (value : Nat) (time : ExtendedTime)
    (next_snapshot : Nat) : Fields × Bool :=
  let field : Field := ⟨value, time, next_snapshot⟩
  match alookup fs.field_states id with
  | some old =>
    (⟨areplace fs.field_states id field,
      updateSnapshots old id fs.changed_since_snapshots⟩, false)
  | none => (⟨(id, field) :: fs.field_states, fs.changed_since_snapshots⟩, true)

/-- `Fields::remove` (memoized_flat.rs lines 286-295): offer the removed
value to the snapshots; returns `true` when a field was removed. -/
def fieldsRemove (fs : Fields) (id : FieldId) : Fields × Bool :=
  match alookup fs.field_states id with
  | some old =>
    (⟨aerase fs.field_states id,
      updateSnapshots old id fs.changed_since_snapshots⟩, true)
  | none => (fs, false)

/-- `Fields::set_opt` (memoized_flat.rs lines 297-308). -/
def fieldsSetOpt (fs : Fields) (id : FieldId) (value : Option Nat)
    (time : ExtendedTime) (next_snapshot : Nat) : Fields × Bool :=
  match value with
  | some v => fieldsSet fs id v time next_snapshot
  | none => fieldsRemove fs id

/-- The fall-through closure of the snapshot accessor (memoized_flat.rs
lines 110-125): consult the store, treating the field as absent when its
`first_snapshot_not_updated` exceeds the snapshot's index. -/
def snapshotFallback (fs : Fields) (sidx : Nat) (id : FieldId) :
    Option (Nat × ExtendedTime) :=
  (alookup fs.field_states id).bind fun field =>
    if field.first_snapshot_not_updated > sidx then none
    else some (field.data, field.last_change)

/-- `Accessor::generic_data_and_extended_last_change` for `Snapshot`
(memoized_flat.rs lines 105-127): `get_default` on the snapshot's
copy-on-write map with the store fall-through, memoizing a found value;
the copy-on-write map lives in `changed_since_snapshots` under the
snapshot's index. -/
def snapRead (fs : Fields) (sidx : Nat) (id : FieldId) :
    Option (Nat × ExtendedTime) × Fields :=
  match alookup fs.changed_since_snapshots sidx with
  | none => (none, fs)
  | some cow =>
    let rc := cowGetDefault cow id (snapshotFallback fs sidx id)
    (rc.1, ⟨fs.field_states, areplace fs.changed_since_snapshots sidx rc.2⟩)

/-- The store-level state during a steward's life: the shared `Fields`
plus the steward's `next_snapshot` counter. -/
structure StoreState where
  fields : Fields
  next_snapshot : Nat
deriving DecidableEq, Repr

/-- The store-registration half of `Steward::snapshot_before`
(memoized_flat.rs lines 494-511): ensure a copy-on-write map is registered
under `next_snapshot` and advance the counter.  (The new `Snapshot` handle
is the index `next_snapshot`.) -/
def snapMake (s : StoreState) : StoreState :=
  ⟨if (alookup s.fields.changed_since_snapshots s.next_snapshot).isSome then s.fields
    else ⟨s.fields.field_states,
          (s.next_snapshot, []) :: s.fields.changed_since_snapshots⟩,
   s.next_snapshot + 1⟩

/-- Store-level projection of the façade operations of C2: every
`insert_fiat_event`/`remove_fiat_event` call leaves the store untouched;
every `step` (and the catch-up loop inside `snapshot_before`) acts on the
store as the sequence of `Fields::set_opt` calls its event's
`Mutator::set` calls issue, each stamped with the steward's current
`next_snapshot`; `snapshot_before` then registers the new snapshot; and
reads through any live snapshot memoize through `get_default`. -/
inductive StoreOp where
  | write (id : FieldId) (value : Option Nat) (time : ExtendedTime)
  | snap
  | read (sidx : Nat) (id : FieldId)
deriving DecidableEq, Repr

def applyStoreOp (s : StoreState) : StoreOp → StoreState
  | .write id v time => ⟨(fieldsSetOpt s.fields id v time s.next_snapshot).1, s.next_snapshot⟩
  | .snap => snapMake s
  | .read sidx id => ⟨(snapRead s.fields sidx id).2, s.next_snapshot⟩

def applyStoreOps (s : StoreState) : List StoreOp → StoreState
  | [] => s
  | op :: rest => applyStoreOps (applyStoreOp s op) rest

/-- What a reader observes through the snapshot with index `sidx`. -/
def snapView (s : StoreState) (sidx : Nat) (id : FieldId) :
    Option (Nat × ExtendedTime) :=
  (snapRead s.fields sidx id).1

/-- A snapshot handle is live in a state when its index is registered and
below the counter. -/
def snapLive (s : StoreState) (sidx : Nat) : Prop :=
  sidx < s.next_snapshot ∧
  (alookup s.fields.changed_since_snapshots sidx).isSome = true

instance (s : StoreState) (sidx : Nat) : Decidable (snapLive s sidx) := by
  unfold snapLive; infer_instance

end MemoizedFlat

/-! ## The memoized-flat scheduler and façade
(src/src/stewards/memoized_flat.rs, lines 56-66, 310-332, 441-586)

The scheduler-level state keeps the `StewardOwned` components the façade
contracts observe: `last_event`, `invalid_before`, the fiat-event
`BTreeMap`, the predicted-event `BTreeMap` keyed by time, and the
snapshot counter.  Event payloads are opaque `Nat`s.  A `BTreeMap`'s
`.iter().take(1)` yields its minimum-key entry, modelled by an explicit
minimum selection over the association list. -/

/-- `FiatEventOperationError` (api.rs lines 338-342). -/
inductive FiatEventOperationError where
  | InvalidInput
  | InvalidTime
deriving DecidableEq, Repr

/-- One fold step of minimum-entry selection: keep the entry with the
smaller key, preferring the earlier-seen entry on ties. -/
def btStep (acc : Option (ExtendedTime × Nat)) (kv : ExtendedTime × Nat) :
    Option (ExtendedTime × Nat) :=
  match acc with
  | none => some kv
  | some best => if kv.1 < best.1 then some kv else acc

/-- The first (minimum-key) entry of a `BTreeMap` modelled as an
association list with unique keys. -/
def btFirst (l : List (ExtendedTime × Nat)) : Option (ExtendedTime × Nat) :=
  l.foldl btStep none

/-- One fold step of minimum selection over bare extended times. -/
def etStep (acc : Option ExtendedTime) (t : ExtendedTime) : Option ExtendedTime :=
  match acc with
  | none => some t
  | some best => if t < best then some t else acc

/-- The first (minimum) element of a `BTreeSet<ExtendedTime>` modelled as
a list. -/
def etFirst (l : List ExtendedTime) : Option ExtendedTime :=
  l.foldl etStep none

/-- One fold step of maximum selection over extended times (the
`last_change` fold in `from_snapshot`). -/
def etMaxStep (acc : Option ExtendedTime) (t : ExtendedTime) : Option ExtendedTime :=
  match acc with
  | none => some t
  | some cur => if cur < t then some t else acc

namespace MemoizedFlat

/-- Modelled from the spec: `common::extended_time_of_fiat_event(t, id)`
(invoked at memoized_flat.rs lines 468 and 482; common.rs lives outside
src/).  A fiat event at `(t, distinguisher)` is assigned `ExtendedTime
(base = t, iteration = 0, id = distinguisher)` (spec §4.1). -/
def extendedTimeOfFiatEvent (t : Int) (did : Nat) : ExtendedTime := ⟨t, 0, did⟩

/-- The scheduler-level `StewardOwned` (memoized_flat.rs lines 56-66). -/
structure Steward where
  last_event : Option ExtendedTime
  invalid_before : ValidSince Int
  fiat_events : List (ExtendedTime × Nat)
  predictions_by_time : List (ExtendedTime × Nat)
  next_snapshot : Nat
deriving DecidableEq, Repr

/-- Rust `std::cmp::max` under `Ord for ValidSince` (returns the second
argument when equal). -/
def vsMax (a b : ValidSince Int) : ValidSince Int :=
  if ValidSince.cmp b a = .lt then a else b

/-- `Steward::valid_since` (memoized_flat.rs lines 454-460). -/
def validSince (s : Steward) : ValidSince Int :=
  vsMax s.invalid_before
    (match s.last_event with
     | none => .TheBeginning
     | some t => .After t.base)

/-- `Steward::next_event` (memoized_flat.rs lines 311-332): the earlier of
the first fiat event and the first predicted event; on a key tie the fiat
event, yielded first by `Iterator::chain`, wins `min_by_key`. -/
def nextEvent (s : Steward) : Option (ExtendedTime × Nat) :=
  match btFirst s.fiat_events, btFirst s.predictions_by_time with
  | none, none => none
  | some f, none => some f
  | none, some p => some p
  | some f, some p => if f.1 ≤ p.1 then some f else some p

/-- `IncrementalTimeSteward::updated_until_before` (memoized_flat.rs
lines 582-584). -/
def updatedUntilBefore (s : Steward) : Option Int :=
  (nextEvent s).map fun e => e.1.base

/-- `BTreeMap::insert`: replaces in place and returns the displaced
value. -/
def btInsert (l : List (ExtendedTime × Nat)) (k : ExtendedTime) (v : Nat) :
    List (ExtendedTime × Nat) × Option Nat :=
  match alookup l k with
  | some old => (areplace l k v, some old)
  | none => ((k, v) :: l, none)

/-- `Steward::insert_fiat_event` (memoized_flat.rs lines 462-473).  The
`time_steward_common_insert_fiat_event_prefix!` macro lives outside src/
and is modelled from the spec: it returns `Err(InvalidTime)` when `time <
valid_since()` (the `PartialOrd<T>` comparison `self.valid_since() >
time`) and otherwise falls through.  The body then calls
`BTreeMap::insert`, so on a duplicate key the stored event is replaced
before `Err(InvalidInput)` is returned. -/
def insertFiatEvent (s : Steward) (t : Int) (did : Nat) (ev : Nat) :
    Except FiatEventOperationError Unit × Steward :=
  if ValidSince.cmpT (validSince s) t = .gt then (.error .InvalidTime, s)
  else
    match btInsert s.fiat_events (extendedTimeOfFiatEvent t did) ev with
    | (l2, none) => (.ok (), { s with fiat_events := l2 })
    | (l2, some _) => (.error .InvalidInput, { s with fiat_events := l2 })

/-- `Steward::remove_fiat_event` (memoized_flat.rs lines 475-486). -/
def removeFiatEvent (s : Steward) (t : Int) (did : Nat) :
    Except FiatEventOperationError Unit × Steward :=
  if ValidSince.cmpT (validSince s) t = .gt then (.error .InvalidTime, s)
  else
    match alookup s.fiat_events (extendedTimeOfFiatEvent t did) with
    | none => (.error .InvalidInput, s)
    | some _ => (.ok (),
        { s with fiat_events := aerase s.fiat_events (extendedTimeOfFiatEvent t did) })

/-- `Steward::execute_event` (memoized_flat.rs lines 417-439) at
scheduler level: the event's writes act on the store (see the store
model); then the fiat event at the executed time is cleaned up,
`last_event` advances, and the predictions enqueued by the writes are
re-made.  The resulting prediction queue is a parameter: `make_prediction`
retains or rebuilds entries, and
`common::next_extended_time_of_predicted_event` (outside src/; spec §4.1)
schedules rebuilt predictions strictly after the current event, while
retained entries were already pending and hence not earlier than the
executed minimum. -/
def executeEvent (s : Steward) (event_time : ExtendedTime)
    (newPreds : List (ExtendedTime × Nat)) : Steward :=
  { s with fiat_events := aerase s.fiat_events event_time,
           last_event := some event_time,
           predictions_by_time := newPreds }

/-- `IncrementalTimeSteward::step` (memoized_flat.rs lines 576-581). -/
def step (s : Steward) (newPreds : List (ExtendedTime × Nat)) : Steward :=
  match nextEvent s with
  | none => s
  | some e => executeEvent s e.1 newPreds

/-- `TimeStewardFromConstants::from_constants` (memoized_flat.rs lines
515-538), scheduler components. -/
def fromConstants : Steward :=
  ⟨none, .TheBeginning, [], [], 0⟩

/-- `TimeStewardFromSnapshot::from_snapshot` (memoized_flat.rs lines
539-573), scheduler components: `invalid_before := Before(now)`;
`last_event` is folded up to the greatest `last_change` among the
snapshot's entries; the predictions rebuilt by `make_prediction` are a
parameter as in `executeEvent`. -/
def fromSnapshot (now : Int) (entries : List ExtendedTime)
    (newPreds : List (ExtendedTime × Nat)) : Steward :=
  { last_event := entries.foldl etMaxStep none,
    invalid_before := .Before now,
    fiat_events := [],
    predictions_by_time := newPreds,
    next_snapshot := 0 }

/-- C4's invariant: no pending fiat or predicted event precedes the last
executed event. -/
def Inv (s : Steward) : Prop :=
  match s.last_event with
  | none => True
  | some le =>
    (∀ kv ∈ s.fiat_events, le ≤ kv.1) ∧ (∀ kv ∈ s.predictions_by_time, le ≤ kv.1)

instance (s : Steward) : Decidable (Inv s) := by
  unfold Inv
  cases s.last_event <;> infer_instance

/-- One façade call at scheduler level.  `step` and the catch-up loop
inside `snapshot_before` execute pending events one at a time (`stepOp`);
`snapshot_before` additionally bumps `next_snapshot` (`snapOp`); an
execution's rebuilt prediction queue never precedes the executed event
(see `executeEvent`). -/
inductive Op : Steward → Steward → Prop where
  | insertFiat (s : Steward) (t : Int) (did ev : Nat) :
      Op s (insertFiatEvent s t did ev).2
  | removeFiat (s : Steward) (t : Int) (did : Nat) :
      Op s (removeFiatEvent s t did).2
  | stepOp (s : Steward) (newPreds : List (ExtendedTime × Nat))
      (hbound : ∀ e, nextEvent s = some e → ∀ kv ∈ newPreds, e.1 ≤ kv.1) :
      Op s (step s newPreds)
  | snapOp (s : Steward) :
      Op s { s with next_snapshot := s.next_snapshot + 1 }

/-- Zero or more façade calls. -/
def Reach : Steward → Steward → Prop := Relation.ReflTransGen Op

end MemoizedFlat

/-- `HashSet::insert` on a set modelled as a duplicate-free list. -/
def hsInsert {α : Type} [DecidableEq α] (s : List α) (x : α) : List α :=
  if x ∈ s then s else x :: s

/-- `HashSet::remove` / `partially_persistent_nonindexed_set` removal. -/
def hsRemove {α : Type} [DecidableEq α] (s : List α) (x : α) : List α :=
  s.filter fun y => decide (y ≠ x)

namespace MemoizedFlat

/-- The state `Mutator::set` acts on (memoized_flat.rs lines 68-78 and
218-247): the field store, the event's accumulated `predictions_needed`
set of `(row, predictor)` pairs, the steward's `prediction_dependencies`
map from a `FieldId` to the predictions that read it, the
`existent_fields` set, and the snapshot counter. -/
structure MutatorState where
  fields : Fields
  predictions_needed : List (Nat × Nat)
  prediction_dependencies : List (FieldId × List (Nat × Nat))
  existent_fields : List FieldId
  next_snapshot : Nat
deriving DecidableEq, Repr

/-- `Mutator::set` (memoized_flat.rs lines 219-247).  The
`time_steward_common_mutator_set_prefix!` macro lives outside src/ and is
modelled from the spec as contributing no state change here.  The body:
remember the old field state; run `Fields::set_opt`; when existence
changed, enqueue the watching predictors of the written column for every
such predictor and toggle `existent_fields`; finally — unconditionally,
with no comparison of the written value against the old one — move every
prediction registered in `prediction_dependencies` under this `FieldId`
into `predictions_needed` and drop the dependency entry.
`predictors_by_column` maps a column id to the predictor ids watching it
(`StewardSettings`). -/
def mutatorSet (ms : MutatorState) (predictors_by_column : List (Nat × List Nat))
    (row col : Nat) (data : Option Nat) (now : ExtendedTime) : MutatorState :=
  let field_id : FieldId := (row, col)
  let old_value := alookup ms.fields.field_states field_id
  let sr := fieldsSetOpt ms.fields field_id data now ms.next_snapshot
  let ms1 : MutatorState :=
    if sr.2 then
      { ms with
        fields := sr.1,
        predictions_needed :=
          match alookup predictors_by_column col with
          | none => ms.predictions_needed
          | some predictors =>
            predictors.foldl (fun acc pid => hsInsert acc (row, pid))
              ms.predictions_needed,
        existent_fields :=
          if old_value.isNone then hsInsert ms.existent_fields field_id
          else hsRemove ms.existent_fields field_id }
    else { ms with fields := sr.1 }
  match alookup ms1.prediction_dependencies field_id with
  | none => ms1
  | some deps =>
    { ms1 with
      predictions_needed := deps.foldl hsInsert ms1.predictions_needed,
      prediction_dependencies := aerase ms1.prediction_dependencies field_id }

end MemoizedFlat

/-- The non-strict order characterization on `ValidSince Int`, mirroring
`ltChar`. -/
def ValidSince.leChar : ValidSince Int → ValidSince Int → Prop
  | .TheBeginning, _ => True
  | .Before _, .TheBeginning => False
  | .After _, .TheBeginning => False
  | .Before a, .Before b => a ≤ b
  | .After a, .After b => a ≤ b
  | .Before a, .After b => a ≤ b
  | .After a, .Before b => a < b

namespace Amortized

/-- The scheduler-level component of the amortized steward that
`valid_since` observes (types.rs lines 416-418): `invalid_before`. -/
structure Steward where
  invalid_before : ValidSince Int
deriving DecidableEq, Repr

/-- `TimeStewardFromConstants::from_constants` (types.rs lines 495-521):
`invalid_before := TheBeginning`. -/
def fromConstants : Steward := ⟨.TheBeginning⟩

/-- `TimeStewardFromSnapshot::from_snapshot` (types.rs lines 522-572):
`invalid_before := Before(snapshot.now())`. -/
def fromSnapshot (now : Int) : Steward := ⟨.Before now⟩

/-- `TimeSteward::valid_since` for the amortized steward (types.rs lines
416-418). -/
def validSince (s : Steward) : ValidSince Int := s.invalid_before

/-- `IncrementalTimeSteward::updated_until_before` for the amortized
steward (types.rs lines 480-493), over the two tops `next_stuff` returns
— modelled from the spec (amortized/mod.rs lives outside src/) as the
minimum of `events_needing_attention` and the minimum entry of
`predictions_missing_by_time`. -/
def updatedUntilBeforeA (events_needing_attention : List ExtendedTime)
    (predictions_missing_by_time : List (ExtendedTime × Nat)) : Option Int :=
  match etFirst events_needing_attention, btFirst predictions_missing_by_time with
  | none, none => none
  | some event_time, none => some event_time.base
  | none, some p => some p.1.base
  | some event_time, some p =>
    if event_time ≤ p.1 then some event_time.base else some p.1.base

end Amortized

theorem cmpInt_eq_lt {a b : Int} : cmpInt a b = .lt ↔ a < b := by
  unfold cmpInt; split_ifs <;> simp_all

theorem cmpInt_eq_eq {a b : Int} : cmpInt a b = .eq ↔ a = b := by
  unfold cmpInt; split_ifs <;> simp_all <;> omega

theorem cmpInt_eq_gt {a b : Int} : cmpInt a b = .gt ↔ b < a := by
  unfold cmpInt; split_ifs <;> simp_all <;> omega

theorem ValidSince.lt_iff_ltChar (a b : ValidSince Int) :
    ValidSince.lt a b ↔ ValidSince.ltChar a b := by
  cases a <;> cases b <;>
    simp [ValidSince.lt, ValidSince.cmp, ValidSince.ltChar, cmpInt_eq_lt] <;>
    (split_ifs <;> simp_all)

/-- C10: the `Ord` instance on `ValidSince<T>` is a total order in which
`TheBeginning` is the unique least element, `Before` and `After` are each
strictly monotone, `Before(x) < After(y)` exactly when `x ≤ y`, and
`After(x) < Before(y)` exactly when `x < y` (so `After(2) < Before(3)`);
comparing against a bare time `t`, `TheBeginning < t` always,
`Before(x) < t` exactly when `x ≤ t`, `After(x) < t` exactly when `x < t`,
and a `ValidSince` value is never equal to a bare time. -/
theorem c10_validSince_order :
    (∀ a : ValidSince Int, ValidSince.cmp a a = .eq)
  ∧ (∀ a b : ValidSince Int, ValidSince.cmp a b = .eq ↔ a = b)
  ∧ (∀ a b : ValidSince Int, ValidSince.cmp a b = .lt ↔ ValidSince.cmp b a = .gt)
  ∧ (∀ a b c : ValidSince Int, ValidSince.lt a b → ValidSince.lt b c → ValidSince.lt a c)
  ∧ (∀ a b : ValidSince Int,
      ValidSince.lt a b ∨ a = b ∨ ValidSince.lt b a)
  ∧ (∀ a : ValidSince Int, a ≠ .TheBeginning → ValidSince.lt .TheBeginning a)
  ∧ (∀ x y : Int, ValidSince.lt (.Before x) (.Before y) ↔ x < y)
  ∧ (∀ x y : Int, ValidSince.lt (.After x) (.After y) ↔ x < y)
  ∧ (∀ x y : Int, ValidSince.lt (.Before x) (.After y) ↔ x ≤ y)
  ∧ (∀ x y : Int, ValidSince.lt (.After x) (.Before y) ↔ x < y)
  ∧ ValidSince.lt (.After 2) (.Before 3)
  ∧ (∀ t : Int, ValidSince.cmpT .TheBeginning t = .lt)
  ∧ (∀ x t : Int, ValidSince.cmpT (.Before x) t = .lt ↔ x ≤ t)
  ∧ (∀ x t : Int, ValidSince.cmpT (.After x) t = .lt ↔ x < t)
  ∧ (∀ (a : ValidSince Int) (t : Int), ValidSince.eqT a t = false) := by
  refine ⟨?_, ?_, ?_, ?_, ?_, ?_, ?_, ?_, ?_, ?_, ?_, ?_, ?_, ?_, ?_⟩
  · intro a; cases a <;> simp [ValidSince.cmp, cmpInt_eq_eq]
  · intro a b; cases a <;> cases b <;>
      simp [ValidSince.cmp, cmpInt_eq_eq] <;> (split_ifs <;> simp_all)
  · intro a b; cases a <;> cases b <;>
      simp [ValidSince.cmp, cmpInt_eq_lt, cmpInt_eq_gt] <;>
      (split_ifs <;> simp_all <;> omega)
  · intro a b c hab hbc
    rw [ValidSince.lt_iff_ltChar] at *
    cases a <;> cases b <;> cases c <;>
      simp [ValidSince.ltChar] at * <;> omega
  · intro a b
    rcases eq_or_ne a b with h | h
    · exact Or.inr (Or.inl h)
    · rw [ValidSince.lt_iff_ltChar, ValidSince.lt_iff_ltChar]
      cases a <;> cases b <;> simp [ValidSince.ltChar] at * <;> omega
  · intro a h; rw [ValidSince.lt_iff_ltChar]; cases a <;> simp_all [ValidSince.ltChar]
  · intro x y; rw [ValidSince.lt_iff_ltChar]; simp [ValidSince.ltChar]
  · intro x y; rw [ValidSince.lt_iff_ltChar]; simp [ValidSince.ltChar]
  · intro x y; rw [ValidSince.lt_iff_ltChar]; simp [ValidSince.ltChar]
  · intro x y; rw [ValidSince.lt_iff_ltChar]; simp [ValidSince.ltChar]
  · rw [ValidSince.lt_iff_ltChar]; simp [ValidSince.ltChar]
  · intro t; simp [ValidSince.cmpT]
  · intro x t; simp [ValidSince.cmpT]
  · intro x t; simp [ValidSince.cmpT]
  · intro a t; simp [ValidSince.eqT]

/-- Witness for C10: the theorem applied at concrete inputs, discharging the
hypotheses of the transitivity conjunct. -/
theorem c10_validSince_order_witness :
    ValidSince.lt (.Before (0 : Int)) (.Before 2) :=
  c10_validSince_order.2.2.2.1 (.Before 0) (.Before 1) (.Before 2)
    (by decide) (by decide)

theorem idLookup_insertId {id k : Nat} {t t2 : List (Nat × Nat)}
    (h : insertId id k t = some t2) :
    ∀ x, idLookup t2 x = if x = id then some k else idLookup t x := by
  unfold insertId at h
  split_ifs at h
  cases h
  intro x
  simp only [idLookup]
  by_cases hx : x = id
  · rw [if_pos hx.symm, if_pos hx]
  · rw [if_neg (fun h2 => hx h2.symm), if_neg hx]

theorem insertId_isSome {id k : Nat} {t : List (Nat × Nat)} :
    (insertId id k t).isSome ↔ 9000 < id ∧ idLookup t id = none := by
  unfold insertId
  split_ifs with h1 h2
  · simp only [Option.isSome_none, Bool.false_eq_true, false_iff]
    rintro ⟨h, _⟩; omega
  · simp only [Option.isSome_none, Bool.false_eq_true, false_iff]
    rintro ⟨_, hn⟩; rw [hn] at h2; simp at h2
  · simp only [Option.isSome_some, true_iff]
    refine ⟨by omega, ?_⟩
    cases hq : idLookup t id with
    | none => rfl
    | some v => rw [hq] at h2; simp at h2

theorem auditIds_isSome {k : Nat} {ids : List Nat} {t : List (Nat × Nat)} :
    (auditIds k ids t).isSome ↔
      ids.Nodup ∧ ∀ id ∈ ids, 9000 < id ∧ idLookup t id = none := by
  induction ids generalizing t with
  | nil => simp [auditIds]
  | cons id rest ih =>
    rw [auditIds]
    cases h : insertId id k t with
    | none =>
      have hno : ¬ (9000 < id ∧ idLookup t id = none) := by
        rw [← insertId_isSome (k := k)]; rw [h]; simp
      simp only [Option.none_bind, Option.isSome_none, Bool.false_eq_true, false_iff,
        List.nodup_cons, List.mem_cons]
      rintro ⟨_, hall⟩
      exact hno (hall id (Or.inl rfl))
    | some t2 =>
      have hins : 9000 < id ∧ idLookup t id = none := by
        rw [← insertId_isSome (k := k)]; rw [h]; simp
      have hlook := idLookup_insertId h
      rw [Option.some_bind, ih]
      simp only [List.nodup_cons, List.mem_cons]
      constructor
      · rintro ⟨hnd, hall⟩
        have hidnotin : id ∉ rest := by
          intro hmem
          have h2 := (hall id hmem).2
          rw [hlook id, if_pos rfl] at h2; cases h2
        refine ⟨⟨hidnotin, hnd⟩, ?_⟩
        rintro x (rfl | hx)
        · exact hins
        · have h2 := hall x hx
          rw [hlook x] at h2
          rcases h2 with ⟨h9, hnone⟩
          by_cases hxe : x = id
          · rw [if_pos hxe] at hnone
            exact (Option.some_ne_none _ hnone).elim
          · rw [if_neg hxe] at hnone
            exact ⟨h9, hnone⟩
      · rintro ⟨⟨hidnotin, hnd⟩, hall⟩
        refine ⟨hnd, ?_⟩
        intro x hx
        have h2 := hall x (Or.inr hx)
        refine ⟨h2.1, ?_⟩
        rw [hlook x]
        have hxne : x ≠ id := by rintro rfl; exact hidnotin hx
        rw [if_neg hxne]
        exact h2.2

theorem auditIds_lookup {k : Nat} {ids : List Nat} {t t2 : List (Nat × Nat)}
    (h : auditIds k ids t = some t2) :
    ∀ x, idLookup t2 x = if x ∈ ids then some k else idLookup t x := by
  induction ids generalizing t with
  | nil => rw [auditIds] at h; cases h; simp
  | cons id rest ih =>
    rw [auditIds] at h
    cases hins : insertId id k t with
    | none => rw [hins, Option.none_bind] at h; cases h
    | some t1 =>
      rw [hins, Option.some_bind] at h
      intro x
      rw [ih h x, idLookup_insertId hins x]
      by_cases h1 : x ∈ rest <;> by_cases h2 : x = id <;>
        simp [h1, h2, List.mem_cons]

theorem auditPreds_isSome {preds : List (Nat × Nat)} {t : List (Nat × Nat)} :
    (auditPreds preds t).isSome ↔
      (preds.map Prod.fst).Nodup ∧
      ∀ pw ∈ preds, 9000 < pw.1 ∧ idLookup t pw.1 = none ∧
        idLookup t pw.2 = some 0 ∧ pw.2 ∉ preds.map Prod.fst := by
  induction preds generalizing t with
  | nil => simp [auditPreds]
  | cons pw rest ih =>
    rcases pw with ⟨pid, w⟩
    rw [auditPreds]
    cases hins : insertId pid 2 t with
    | none =>
      have hno : ¬ (9000 < pid ∧ idLookup t pid = none) := by
        rw [← insertId_isSome (k := 2)]; rw [hins]; simp
      simp only [Option.none_bind, Option.isSome_none, Bool.false_eq_true, false_iff]
      rintro ⟨_, hall⟩
      have h2 := hall (pid, w) (List.mem_cons_self _ _)
      exact hno ⟨h2.1, h2.2.1⟩
    | some t2 =>
      have hinsS : 9000 < pid ∧ idLookup t pid = none := by
        rw [← insertId_isSome (k := 2)]; rw [hins]; simp
      have hlook := idLookup_insertId hins
      rw [Option.some_bind]
      split_ifs with hw
      · -- the watched-column check succeeded: `idLookup t2 w = some 0`
        have hwpid : w ≠ pid := by
          intro hh
          rw [hlook w, if_pos hh] at hw
          simp at hw
        have hwt : idLookup t w = some 0 := by
          rw [hlook w, if_neg hwpid] at hw; exact hw
        rw [ih]
        simp only [List.map_cons, List.nodup_cons, List.mem_cons]
        constructor
        · rintro ⟨hnd, hall⟩
          have hpidnotin : pid ∉ rest.map Prod.fst := by
            intro hmem
            rcases List.mem_map.mp hmem with ⟨⟨p2, w2⟩, hp2, hpe⟩
            have h2 := (hall _ hp2).2.1
            simp only at hpe
            rw [hpe, hlook, if_pos rfl] at h2
            cases h2
          have hwnotin : w ∉ rest.map Prod.fst := by
            intro hmem
            rcases List.mem_map.mp hmem with ⟨⟨p2, w2⟩, hp2, hpe⟩
            have h2 := (hall _ hp2).2.1
            simp only at hpe
            rw [hpe, hlook, if_neg hwpid, hwt] at h2
            cases h2
          refine ⟨⟨hpidnotin, hnd⟩, ?_⟩
          rintro ⟨p2, w2⟩ (heq | hx)
          · cases heq
            refine ⟨hinsS.1, hinsS.2, hwt, ?_⟩
            simp only [List.mem_cons]
            rintro (h | h)
            · exact hwpid h
            · exact hwnotin h
          · have h2 := hall _ hx
            rcases h2 with ⟨h9, hnone, hzero, hnotin⟩
            rw [hlook] at hnone hzero
            by_cases hpe : p2 = pid
            · rw [if_pos hpe] at hnone; cases hnone
            · rw [if_neg hpe] at hnone
              have hw2pid : w2 ≠ pid := by
                rintro rfl
                rw [if_pos rfl] at hzero
                simp at hzero
              rw [if_neg hw2pid] at hzero
              refine ⟨h9, hnone, hzero, ?_⟩
              simp only [List.mem_cons]
              rintro (h | h)
              · exact hw2pid h
              · exact hnotin h
        · rintro ⟨⟨hpidnotin, hnd⟩, hall⟩
          refine ⟨hnd, ?_⟩
          rintro ⟨p2, w2⟩ hx
          have h2 := hall _ (Or.inr hx)
          rcases h2 with ⟨h9, hnone, hzero, hnotin⟩
          have hp2ne : p2 ≠ pid := by
            rintro rfl
            exact hpidnotin (List.mem_map.mpr ⟨(p2, w2), hx, rfl⟩)
          have hw2ne : w2 ≠ pid := by
            rintro rfl
            exact hnotin (by simp)
          rw [hlook, hlook, if_neg hp2ne, if_neg hw2ne]
          refine ⟨h9, hnone, hzero, ?_⟩
          intro hmem
          exact hnotin (Or.inr hmem)
      · -- the watched-column check failed
        simp only [Option.isSome_none, Bool.false_eq_true, false_iff]
        rintro ⟨_, hall⟩
        have h2 := hall (pid, w) (List.mem_cons_self _ _)
        rcases h2 with ⟨_, _, hzero, hnotin⟩
        have hwpid : w ≠ pid := by
          rintro rfl; exact hnotin (by simp)
        rw [hlook w, if_neg hwpid] at hw
        exact hw hzero

/-- Counterexample to C9 as stated: a column and an event may each carry
identifier `9001` — every listed identifier exceeds the reserved window and
is unique within its kind — yet `audit_basics` raises a diagnostic, because
all three kinds share one identifier namespace. -/
theorem c9_audit_counterexample :
    (∀ id ∈ ([9001] : List Nat), 9000 < id)
  ∧ ([9001] : List Nat).Nodup
  ∧ auditBasics [9001] [9001] [] = false := by decide
/-- C9 (amended): at steward construction the engine audits every listed
column, event and predictor identifier, and raises a diagnostic if any
identifier is within the reserved window (`id <= 9000`), if any two listed
types — of any kinds, since columns, events and predictors share one
identifier namespace — collide on the same identifier, or if a listed
predictor's watched column is not itself listed; a list passes the audit
exactly when all identifiers are above the window, mutually distinct
across all three kinds together, and every predictor's watched column is
listed. -/
theorem c9_audit_identifiers (cols evs : List Nat) (preds : List (Nat × Nat)) :
    auditBasics cols evs preds = true ↔
      (∀ id ∈ cols ++ evs ++ preds.map Prod.fst, 9000 < id)
    ∧ (cols ++ evs ++ preds.map Prod.fst).Nodup
    ∧ (∀ pw ∈ preds, pw.2 ∈ cols) := by
  unfold auditBasics
  cases h1 : auditIds 0 cols [] with
  | none =>
    have hno : ¬ (cols.Nodup ∧ ∀ id ∈ cols, 9000 < id ∧ idLookup [] id = none) := by
      rw [← auditIds_isSome (k := 0), h1]; simp
    simp only [Option.none_bind, Option.isSome_none, Bool.false_eq_true, false_iff]
    rintro ⟨hall, hnd, _⟩
    rw [List.nodup_append, List.nodup_append] at hnd
    exact hno ⟨hnd.1.1, fun id hid => ⟨hall id (by simp [hid]), rfl⟩⟩
  | some t1 =>
    have hl1 : ∀ x, idLookup t1 x = if x ∈ cols then some 0 else none := by
      intro x; rw [auditIds_lookup h1 x]; rfl
    have hc : cols.Nodup ∧ ∀ id ∈ cols, 9000 < id ∧ idLookup [] id = none := by
      rw [← auditIds_isSome (k := 0), h1]; simp
    rw [Option.some_bind]
    cases h2 : auditIds 1 evs t1 with
    | none =>
      have hno : ¬ (evs.Nodup ∧ ∀ id ∈ evs, 9000 < id ∧ idLookup t1 id = none) := by
        rw [← auditIds_isSome (k := 1), h2]; simp
      simp only [Option.none_bind, Option.isSome_none, Bool.false_eq_true, false_iff]
      rintro ⟨hall, hnd, _⟩
      rw [List.nodup_append, List.nodup_append] at hnd
      apply hno
      refine ⟨hnd.1.2.1, fun id hid => ⟨hall id (by simp [hid]), ?_⟩⟩
      rw [hl1 id, if_neg ?_]
      intro hmem
      exact hnd.1.2.2 hmem hid
    | some t2 =>
      have he : evs.Nodup ∧ ∀ id ∈ evs, 9000 < id ∧ idLookup t1 id = none := by
        rw [← auditIds_isSome (k := 1), h2]; simp
      have hl2 : ∀ x, idLookup t2 x =
          if x ∈ evs then some 1 else if x ∈ cols then some 0 else none := by
        intro x; rw [auditIds_lookup h2 x, hl1 x]
      have hcolev : ∀ x ∈ evs, x ∉ cols := by
        intro x hx hmem
        have h3 := (he.2 x hx).2
        rw [hl1 x, if_pos hmem] at h3
        cases h3
      rw [Option.some_bind, auditPreds_isSome]
      constructor
      · rintro ⟨hndp, hallp⟩
        have hpnone : ∀ pw ∈ preds, pw.1 ∉ evs ∧ pw.1 ∉ cols := by
          intro pw hpw
          have h3 := (hallp pw hpw).2.1
          rw [hl2] at h3
          constructor
          · intro hmem; rw [if_pos hmem] at h3; cases h3
          · intro hmem
            by_cases hev : pw.1 ∈ evs
            · rw [if_pos hev] at h3; cases h3
            · rw [if_neg hev, if_pos hmem] at h3; cases h3
        have hwcols : ∀ pw ∈ preds, pw.2 ∉ evs ∧ pw.2 ∈ cols := by
          intro pw hpw
          have h3 := (hallp pw hpw).2.2.1
          rw [hl2] at h3
          by_cases hev : pw.2 ∈ evs
          · rw [if_pos hev] at h3; cases h3
          · refine ⟨hev, ?_⟩
            rw [if_neg hev] at h3
            by_cases hco : pw.2 ∈ cols
            · exact hco
            · rw [if_neg hco] at h3; cases h3
        refine ⟨?_, ?_, fun pw hpw => (hwcols pw hpw).2⟩
        · intro id hid
          simp only [List.mem_append] at hid
          rcases hid with (hid | hid) | hid
          · exact (hc.2 id hid).1
          · exact (he.2 id hid).1
          · rcases List.mem_map.mp hid with ⟨pw, hpw, rfl⟩
            exact (hallp pw hpw).1
        · rw [List.nodup_append, List.nodup_append]
          refine ⟨⟨hc.1, he.1, fun x hx hmem => hcolev x hmem hx⟩, hndp, ?_⟩
          intro x hx hmem
          rcases List.mem_map.mp hmem with ⟨pw, hpw, rfl⟩
          simp only [List.mem_append] at hx
          rcases hx with hx | hx
          · exact (hpnone pw hpw).2 hx
          · exact (hpnone pw hpw).1 hx
      · rintro ⟨hall, hnd, hwcol⟩
        rw [List.nodup_append, List.nodup_append] at hnd
        refine ⟨hnd.2.1, ?_⟩
        intro pw hpw
        have hpmem : pw.1 ∈ preds.map Prod.fst := List.mem_map.mpr ⟨pw, hpw, rfl⟩
        have hp9 : 9000 < pw.1 := hall pw.1 (by simp [hpmem])
        have hpnotev : pw.1 ∉ evs := fun hmem => hnd.2.2 (by simp [hmem]) hpmem
        have hpnotco : pw.1 ∉ cols := fun hmem => hnd.2.2 (by simp [hmem]) hpmem
        have hwin : pw.2 ∈ cols := hwcol pw hpw
        have hwnotev : pw.2 ∉ evs := fun hmem => hcolev pw.2 hmem hwin
        have hwnotp : pw.2 ∉ preds.map Prod.fst := fun hmem =>
          hnd.2.2 (by simp [hwin]) hmem
        refine ⟨hp9, ?_, ?_, hwnotp⟩
        · rw [hl2, if_neg hpnotev, if_neg hpnotco]
        · rw [hl2, if_neg hwnotev, if_pos hwin]

/-- Witness for C9 (amended): a passing listing — one column, one event,
one predictor watching the listed column, all identifiers above the window
and mutually distinct. -/
theorem c9_audit_identifiers_witness :
    auditBasics [9001] [10000] [(10001, 9001)] = true :=
  (c9_audit_identifiers [9001] [10000] [(10001, 9001)]).mpr
    ⟨by decide, by decide, by decide⟩

theorem filter_eq_takeWhile_of_pairwise {α : Type} {p : α → Bool} {l : List α}
    (h : l.Pairwise fun a b => p b = true → p a = true) :
    l.filter p = l.takeWhile p := by
  induction l with
  | nil => rfl
  | cons a l ih =>
    rw [List.pairwise_cons] at h
    by_cases hp : p a = true
    · rw [List.filter_cons_of_pos hp, List.takeWhile_cons_of_pos hp, ih h.2]
    · rw [List.filter_cons_of_neg hp, List.takeWhile_cons_of_neg hp]
      rw [List.filter_eq_nil_iff]
      intro b hb hpb
      exact hp (h.1 b hb hpb)

theorem dropWhile_all_neg_of_pairwise {α : Type} {p : α → Bool} {l : List α}
    (h : l.Pairwise fun a b => p b = true → p a = true) :
    ∀ x ∈ l.dropWhile p, p x = false := by
  induction l with
  | nil => simp
  | cons a l ih =>
    rw [List.pairwise_cons] at h
    by_cases hp : p a = true
    · rw [List.dropWhile_cons_of_pos hp]
      exact ih h.2
    · rw [List.dropWhile_cons_of_neg hp]
      intro x hx
      rcases List.mem_cons.mp hx with rfl | hx
      · exact Bool.not_eq_true _ ▸ eq_false_of_ne_true hp
      · cases hpx : p x
        · rfl
        · exact absurd (h.1 x hx hpx) hp

theorem filter_neg_eq_dropWhile_of_pairwise {α : Type} {p : α → Bool} {l : List α}
    (h : l.Pairwise fun a b => p b = true → p a = true) :
    (l.filter fun x => ! p x) = l.dropWhile p := by
  conv_lhs => rw [← List.takeWhile_append_dropWhile (p := p) (l := l)]
  rw [List.filter_append]
  have h1 : (l.takeWhile p).filter (fun x => ! p x) = [] := by
    rw [List.filter_eq_nil_iff]
    intro b hb
    simp [List.mem_takeWhile_imp hb]
  have h2 : (l.dropWhile p).filter (fun x => ! p x) = l.dropWhile p := by
    rw [List.filter_eq_self]
    intro b hb
    simp [dropWhile_all_neg_of_pairwise h b hb]
  rw [h1, h2, List.nil_append]

namespace Amortized

theorem qualifies_pairwise {changes : List Field} {time : ExtendedTime} {after : Bool}
    (hs : changes.Pairwise fun a b => a.last_change < b.last_change) :
    changes.Pairwise fun a b =>
      qualifies time after b = true → qualifies time after a = true := by
  refine hs.imp ?_
  intro a b hab hq
  unfold qualifies at *
  cases after
  · simp only [Bool.false_eq_true, if_false, decide_eq_true_eq] at hq ⊢
    exact lt_trans hab hq
  · simp only [if_true, decide_eq_true_eq] at hq ⊢
    exact le_trans (le_of_lt hab) hq

theorem countP_le_split (changes : List Field) (time : ExtendedTime) :
    (changes.countP fun c => decide (c.last_change ≤ time)) =
    (changes.countP fun c => decide (c.last_change < time)) +
    (changes.countP fun c => decide (c.last_change = time)) := by
  induction changes with
  | nil => rfl
  | cons c l ih =>
    simp only [List.countP_cons]
    rcases lt_trichotomy c.last_change time with h | h | h
    · simp [h, le_of_lt h, ne_of_lt h, ih]
      omega
    · simp [h, ih]
      omega
    · simp [not_le.mpr h, not_lt.mpr (le_of_lt h), ne_of_gt h, ih]

theorem countP_eq_time_of_sorted {changes : List Field} {time : ExtendedTime}
    (hs : changes.Pairwise fun a b => a.last_change < b.last_change) :
    (changes.countP fun c => decide (c.last_change = time)) ≤ 1 := by
  induction changes with
  | nil => simp
  | cons c l ih =>
    rw [List.pairwise_cons] at hs
    rw [List.countP_cons]
    by_cases h : c.last_change = time
    · have : (l.countP fun c => decide (c.last_change = time)) = 0 := by
        rw [List.countP_eq_zero]
        intro b hb
        simp only [decide_eq_true_eq]
        have := hs.1 b hb
        rw [h] at this
        exact (ne_of_gt this)
      simp [h, this]
    · simp [h]
      exact ih hs.2

theorem qualifies_true_eq (time : ExtendedTime) :
    qualifies time true = fun c => decide (c.last_change ≤ time) := by
  funext c; simp [qualifies]

theorem qualifies_false_eq (time : ExtendedTime) :
    qualifies time false = fun c => decide (c.last_change < time) := by
  funext c; simp [qualifies]

theorem searchIndex_eq_countP {changes : List Field} {time : ExtendedTime} {after : Bool}
    (hs : changes.Pairwise fun a b => a.last_change < b.last_change) :
    searchIndex changes time after =
      ((changes.countP (qualifies time after) : Int)) - 1 := by
  unfold searchIndex binarySearchByTime
  by_cases hany : (changes.any fun c => decide (c.last_change = time)) = true
  · rw [if_pos hany]
    have h1 : (changes.countP fun c => decide (c.last_change = time)) = 1 := by
      have hge : 0 < changes.countP fun c => decide (c.last_change = time) := by
        rcases List.any_eq_true.mp hany with ⟨c, hc, hcq⟩
        exact List.countP_pos_iff.mpr ⟨c, hc, hcq⟩
      have hle := @countP_eq_time_of_sorted changes time hs
      omega
    cases after
    · rw [qualifies_false_eq]
      simp
    · rw [qualifies_true_eq, countP_le_split, h1]
      simp
  · rw [if_neg hany]
    have h0 : (changes.countP fun c => decide (c.last_change = time)) = 0 :=
      List.countP_eq_zero.mpr fun a ha hq =>
        hany (List.any_eq_true.mpr ⟨a, ha, hq⟩)
    cases after
    · rw [qualifies_false_eq]
    · rw [qualifies_true_eq, countP_le_split, h0]
      simp

theorem getAndNext_eq_spec {changes : List Field} {time : ExtendedTime} {after : Bool}
    (hs : changes.Pairwise fun a b => a.last_change < b.last_change) :
    getAndNext changes time after =
      (latestChangeAt changes time after).bind fun c =>
        c.data.map fun v =>
          ((v, c.last_change),
           (nextChangeAfter changes time after).map (·.last_change)) := by
  have hqp := @qualifies_pairwise changes time after hs
  have ftw := filter_eq_takeWhile_of_pairwise hqp
  have hlen : (changes.takeWhile (qualifies time after)).length =
      changes.countP (qualifies time after) := by
    rw [List.countP_eq_length_filter, ftw]
  have hsplit : changes.takeWhile (qualifies time after) ++
      changes.dropWhile (qualifies time after) = changes :=
    List.takeWhile_append_dropWhile _ _
  have hA : listGetI changes ((changes.countP (qualifies time after) : Int) - 1) =
      (changes.takeWhile (qualifies time after)).getLast? := by
    cases hc : changes.countP (qualifies time after) with
    | zero =>
      unfold listGetI
      rw [if_pos (by omega)]
      have ht0 : changes.takeWhile (qualifies time after) = [] :=
        List.length_eq_zero.mp (by rw [hlen, hc])
      rw [ht0]
      rfl
    | succ k =>
      unfold listGetI
      rw [if_neg (by push_cast; omega)]
      have htoNat : ((((k + 1 : Nat) : Int)) - 1).toNat = k := by omega
      rw [htoNat]
      have hg : changes[k]? = (changes.takeWhile (qualifies time after))[k]? := by
        conv_lhs => rw [← hsplit]
        rw [List.getElem?_append, if_pos (by rw [hlen, hc]; omega)]
      rw [hg, List.getLast?_eq_getElem?, hlen, hc]
      simp
  have hB : listGetI changes ((changes.countP (qualifies time after) : Int) - 1 + 1) =
      (changes.dropWhile (qualifies time after)).head? := by
    have he : ((changes.countP (qualifies time after) : Int) - 1 + 1) =
        ((changes.countP (qualifies time after) : Int)) := by ring
    rw [he]
    unfold listGetI
    rw [if_neg (by push_cast; omega)]
    obtain ⟨n, hn⟩ : ∃ n, n = changes.countP (qualifies time after) := ⟨_, rfl⟩
    rw [← hn]
    have ht2 : ((n : Int)).toNat = n := by omega
    rw [ht2]
    have hg : changes[n]? = (changes.dropWhile (qualifies time after))[0]? := by
      conv_lhs => rw [← hsplit]
      rw [List.getElem?_append, if_neg (by rw [hlen, ← hn]; omega), hlen, ← hn]
      simp
    rw [hg, List.head?_eq_getElem?]
  unfold getAndNext latestChangeAt nextChangeAfter
  rw [searchIndex_eq_countP hs, hA, hB, ftw,
    filter_neg_eq_dropWhile_of_pairwise hqp]

end Amortized

/-- Counterexample to C6 as stated: a history holding a single deletion
entry (`data = None`) recorded at extended time `(1,0,0)` is strictly
sorted, and it does contain a stored change whose `last_change` is at or
before the query time `(2,0,0)`; yet `get_and_next` with `after = true`
returns `None` rather than that stored change, because the located entry
carries no value. -/
theorem c6_field_history_read_counterexample :
    (([⟨⟨1, 0, 0⟩, none⟩] : List Amortized.Field).Pairwise
        fun a b => a.last_change < b.last_change)
  ∧ (∃ c ∈ ([⟨⟨1, 0, 0⟩, none⟩] : List Amortized.Field),
        c.last_change ≤ (⟨2, 0, 0⟩ : ExtendedTime))
  ∧ Amortized.getAndNext [⟨⟨1, 0, 0⟩, none⟩] ⟨2, 0, 0⟩ true = none := by
  refine ⟨List.pairwise_singleton _ _, ⟨⟨⟨1, 0, 0⟩, none⟩, by simp, by decide⟩, by decide⟩

/-- C6 (amended): on a history of stored changes strictly increasing in
`last_change`, `Fields::get_and_next(id, t, after)` locates the stored
change with the greatest `last_change ≤ t` when `after` is true
(inclusive), or the greatest `last_change < t` when `after` is false; if
that change holds a value it returns the value and the change's time,
together with the `last_change` time of the next stored change after it
when one exists, and it returns `None` when no such change exists or when
the located change is a recorded deletion (`data = None`). -/
theorem c6_field_history_read (fs : Amortized.FieldsMap) (id : Nat)
    (history : Amortized.FieldHistory) (time : ExtendedTime) (after : Bool)
    (hfind : fs.lookup id = some history)
    (hs : history.changes.Pairwise fun a b => a.last_change < b.last_change) :
    Amortized.fieldsGetAndNext fs id time after =
      (Amortized.latestChangeAt history.changes time after).bind fun c =>
        c.data.map fun v =>
          ((v, c.last_change),
           (Amortized.nextChangeAfter history.changes time after).map
             (·.last_change)) := by
  unfold Amortized.fieldsGetAndNext
  rw [hfind, Option.some_bind]
  exact Amortized.getAndNext_eq_spec hs

/-- Witness for C6 (amended): a two-entry history read inclusively between
its entries returns the first value with the second change's time as the
bound. -/
theorem c6_field_history_read_witness :
    Amortized.fieldsGetAndNext
        [(5, ⟨[⟨⟨1, 0, 0⟩, some 11⟩, ⟨⟨3, 0, 0⟩, some 22⟩], 0⟩)] 5 ⟨2, 0, 0⟩ true =
      some ((11, ⟨1, 0, 0⟩), some ⟨3, 0, 0⟩) := by
  rw [c6_field_history_read
    [(5, ⟨[⟨⟨1, 0, 0⟩, some 11⟩, ⟨⟨3, 0, 0⟩, some 22⟩], 0⟩)] 5
    ⟨[⟨⟨1, 0, 0⟩, some 11⟩, ⟨⟨3, 0, 0⟩, some 22⟩], 0⟩ ⟨2, 0, 0⟩ true
    (by rfl) (by decide)]
  decide

theorem alookup_cons {κ α : Type} [DecidableEq κ] (k : κ) (w : α)
    (rest : List (κ × α)) (x : κ) :
    alookup ((k, w) :: rest) x = if k = x then some w else alookup rest x := rfl

theorem alookup_areplace {κ α : Type} [DecidableEq κ] (l : List (κ × α)) (key : κ)
    (v : α) (x : κ) :
    alookup (areplace l key v) x =
      if x = key then (alookup l key).map (fun _ => v) else alookup l x := by
  induction l with
  | nil => simp [alookup, areplace]
  | cons kv rest ih =>
    rcases kv with ⟨k, w⟩
    by_cases hk : k = key <;> by_cases hx : k = x <;>
      simp_all [areplace, alookup_cons, List.map_cons] <;>
      rw [if_neg (fun hh => hx hh.symm), if_neg (fun hh => hx hh.symm)]

theorem alookup_aerase {κ α : Type} [DecidableEq κ] (l : List (κ × α)) (key x : κ) :
    alookup (aerase l key) x = if x = key then none else alookup l x := by
  induction l with
  | nil => simp [alookup, aerase]
  | cons kv rest ih =>
    rcases kv with ⟨k, w⟩
    by_cases hk : k = key <;> by_cases hx : k = x <;>
      simp_all [aerase, alookup_cons, List.filter_cons] <;>
      rw [if_neg (fun hh => hx hh.symm), if_neg (fun hh => hx hh.symm)]

theorem alookup_append_none {κ α : Type} [DecidableEq κ] {l1 : List (κ × α)}
    (l2 : List (κ × α)) {x : κ} (h : alookup l1 x = none) :
    alookup (l1 ++ l2) x = alookup l2 x := by
  induction l1 with
  | nil => simp
  | cons kv rest ih =>
    rcases kv with ⟨k, w⟩
    rw [List.cons_append, alookup_cons]
    rw [alookup_cons] at h
    by_cases hk : k = x
    · rw [if_pos hk] at h; cases h
    · rw [if_neg hk] at h
      rw [if_neg hk, ih h]

theorem alookup_append_some {κ α : Type} [DecidableEq κ] {l1 : List (κ × α)}
    (l2 : List (κ × α)) {x : κ} {v : α} (h : alookup l1 x = some v) :
    alookup (l1 ++ l2) x = some v := by
  induction l1 with
  | nil => cases h
  | cons kv rest ih =>
    rcases kv with ⟨k, w⟩
    rw [List.cons_append, alookup_cons]
    rw [alookup_cons] at h
    by_cases hk : k = x
    · rw [if_pos hk] at h; rw [if_pos hk]; exact h
    · rw [if_neg hk] at h
      rw [if_neg hk, ih h]

namespace MemoizedFlat

theorem cgd_fst_of_some {cow : Cow} {id : FieldId} {fb : Option (Nat × ExtendedTime)}
    {v : Nat × ExtendedTime} (h : alookup cow id = some v) :
    (cowGetDefault cow id fb).1 = some v := by
  unfold cowGetDefault; rw [h]

theorem cgd_snd_of_some {cow : Cow} {id : FieldId} {fb : Option (Nat × ExtendedTime)}
    {v : Nat × ExtendedTime} (h : alookup cow id = some v) :
    (cowGetDefault cow id fb).2 = cow := by
  unfold cowGetDefault; rw [h]

theorem cgd_fst_of_none {cow : Cow} {id : FieldId} {fb : Option (Nat × ExtendedTime)}
    (h : alookup cow id = none) :
    (cowGetDefault cow id fb).1 = fb := by
  unfold cowGetDefault; rw [h]; cases fb <;> rfl

theorem cgd_lookup_self (cow : Cow) (id : FieldId) (fb : Option (Nat × ExtendedTime)) :
    alookup (cowGetDefault cow id fb).2 id = (cowGetDefault cow id fb).1 := by
  unfold cowGetDefault
  cases h : alookup cow id with
  | some v => exact h
  | none =>
    cases fb with
    | none => exact h
    | some v =>
      simp only
      rw [alookup_append_none _ h]
      unfold alookup
      rw [if_pos rfl]

theorem cgd_lookup_other {cow : Cow} {id x : FieldId} (hne : x ≠ id)
    (fb : Option (Nat × ExtendedTime)) :
    alookup (cowGetDefault cow id fb).2 x = alookup cow x := by
  unfold cowGetDefault
  cases h : alookup cow id with
  | some v => rfl
  | none =>
    cases fb with
    | none => rfl
    | some v =>
      simp only
      cases hx : alookup cow x with
      | some w => exact alookup_append_some _ hx
      | none =>
        rw [alookup_append_none _ hx, alookup_cons, if_neg (fun hh => hne hh.symm)]
        rfl

theorem alookup_updateSnapshots (f : Field) (id : FieldId)
    (snaps : List (Nat × Cow)) (i : Nat) :
    alookup (updateSnapshots f id snaps) i =
      (alookup snaps i).map fun cow =>
        if f.first_snapshot_not_updated ≤ i then
          (cowGetDefault cow id (some (f.data, f.last_change))).2
        else cow := by
  induction snaps with
  | nil => simp [updateSnapshots, alookup]
  | cons kc rest ih =>
    rcases kc with ⟨k, cow⟩
    unfold updateSnapshots at ih ⊢
    simp only [List.map_cons]
    by_cases hf : f.first_snapshot_not_updated ≤ k
    · rw [if_pos hf]
      unfold alookup
      by_cases hk : k = i
      · subst hk; rw [if_pos rfl, if_pos rfl]; simp [hf]
      · rw [if_neg hk, if_neg hk, ih]
    · rw [if_neg hf]
      unfold alookup
      by_cases hk : k = i
      · subst hk; rw [if_pos rfl, if_pos rfl]; simp [hf]
      · rw [if_neg hk, if_neg hk, ih]

end MemoizedFlat

namespace MemoizedFlat

theorem snapRead_fst (fs : Fields) (sidx : Nat) (id : FieldId) :
    (snapRead fs sidx id).1 =
      match alookup fs.changed_since_snapshots sidx with
      | none => none
      | some cow => (cowGetDefault cow id (snapshotFallback fs sidx id)).1 := by
  unfold snapRead
  cases alookup fs.changed_since_snapshots sidx with
  | none => rfl
  | some cow => rfl

theorem snapView_store_update (fs : Fields) (ns sidx : Nat) (wid id : FieldId)
    (fstates2 : List (FieldId × Field)) (snaps2 : List (Nat × Cow))
    (hidx : sidx < ns)
    (hother : ∀ x, x ≠ wid → alookup fstates2 x = alookup fs.field_states x)
    (hwid : alookup fstates2 wid = none ∨
            ∃ f2, alookup fstates2 wid = some f2 ∧ f2.first_snapshot_not_updated = ns)
    (hsnaps : snaps2 = match alookup fs.field_states wid with
      | some old => updateSnapshots old wid fs.changed_since_snapshots
      | none => fs.changed_since_snapshots) :
    (snapRead ⟨fstates2, snaps2⟩ sidx id).1 = (snapRead fs sidx id).1 ∧
    (alookup snaps2 sidx).isSome = (alookup fs.changed_since_snapshots sidx).isSome := by
  have hfb_other : ∀ x, x ≠ wid →
      snapshotFallback ⟨fstates2, snaps2⟩ sidx x = snapshotFallback fs sidx x := by
    intro x hx
    unfold snapshotFallback
    rw [hother x hx]
  have hfb_wid : snapshotFallback ⟨fstates2, snaps2⟩ sidx wid = none := by
    unfold snapshotFallback
    rcases hwid with h | ⟨f2, h, hns⟩
    · rw [h]; rfl
    · rw [h]
      simp only [Option.some_bind]
      rw [if_pos (by omega)]
  have hsl : alookup snaps2 sidx =
      (alookup fs.changed_since_snapshots sidx).map fun cow =>
        match alookup fs.field_states wid with
        | some old =>
          if old.first_snapshot_not_updated ≤ sidx then
            (cowGetDefault cow wid (some (old.data, old.last_change))).2
          else cow
        | none => cow := by
    rcases hold : alookup fs.field_states wid with _ | old <;> rw [hold] at hsnaps <;>
      rw [hsnaps]
    · cases alookup fs.changed_since_snapshots sidx <;> rfl
    · rw [alookup_updateSnapshots]
  constructor
  · rw [snapRead_fst, snapRead_fst, hsl]
    cases hreg : alookup fs.changed_since_snapshots sidx with
    | none => rfl
    | some cow =>
      simp only [Option.map_some']
      by_cases hid : id = wid
      · subst hid
        rcases hold : alookup fs.field_states id with _ | old
        · have hfb : snapshotFallback fs sidx id = none := by
            unfold snapshotFallback; rw [hold]; rfl
          rw [hfb_wid, hfb]
        · dsimp only
          by_cases hle : old.first_snapshot_not_updated ≤ sidx
          · rw [if_pos hle]
            cases hcw : alookup cow id with
            | some c =>
              have h2 : alookup
                  (cowGetDefault cow id (some (old.data, old.last_change))).2 id =
                  some c := by
                rw [cgd_lookup_self, cgd_fst_of_some hcw]
              rw [cgd_fst_of_some h2, cgd_fst_of_some hcw]
            | none =>
              have hfb : snapshotFallback fs sidx id =
                  some (old.data, old.last_change) := by
                unfold snapshotFallback; rw [hold]
                simp only [Option.some_bind]
                rw [if_neg (by omega)]
              have h2 : alookup
                  (cowGetDefault cow id (some (old.data, old.last_change))).2 id =
                  some (old.data, old.last_change) := by
                rw [cgd_lookup_self, cgd_fst_of_none hcw]
              rw [cgd_fst_of_some h2, cgd_fst_of_none hcw, hfb]
          · rw [if_neg hle]
            have hfb : snapshotFallback fs sidx id = none := by
              unfold snapshotFallback; rw [hold]
              simp only [Option.some_bind]
              rw [if_pos (by omega)]
            rw [hfb_wid, hfb]
      · have hfb := hfb_other id hid
        have hlk : alookup
            (match alookup fs.field_states wid with
             | some old =>
               if old.first_snapshot_not_updated ≤ sidx then
                 (cowGetDefault cow wid (some (old.data, old.last_change))).2
               else cow
             | none => cow) id = alookup cow id := by
          rcases alookup fs.field_states wid with _ | old
          · rfl
          · dsimp only
            by_cases hle : old.first_snapshot_not_updated ≤ sidx
            · rw [if_pos hle, cgd_lookup_other hid]
            · rw [if_neg hle]
        cases hcd : alookup cow id with
        | some c =>
          rw [cgd_fst_of_some (by rw [hlk, hcd]), cgd_fst_of_some hcd]
        | none =>
          rw [cgd_fst_of_none (by rw [hlk, hcd]), cgd_fst_of_none hcd, hfb]
  · rw [hsl]
    cases alookup fs.changed_since_snapshots sidx <;> rfl

end MemoizedFlat

namespace MemoizedFlat

theorem snapRead_fst_of_none {fs : Fields} {sidx : Nat} (id : FieldId)
    (h : alookup fs.changed_since_snapshots sidx = none) :
    (snapRead fs sidx id).1 = none := by
  unfold snapRead; rw [h]

theorem snapRead_fst_of_reg {fs : Fields} {sidx : Nat} (id : FieldId) {cow : Cow}
    (h : alookup fs.changed_since_snapshots sidx = some cow) :
    (snapRead fs sidx id).1 =
      (cowGetDefault cow id (snapshotFallback fs sidx id)).1 := by
  unfold snapRead; rw [h]

theorem snapRead_snd_of_none {fs : Fields} {sidx : Nat} (id : FieldId)
    (h : alookup fs.changed_since_snapshots sidx = none) :
    (snapRead fs sidx id).2 = fs := by
  unfold snapRead; rw [h]

theorem snapRead_snd_of_reg {fs : Fields} {sidx : Nat} (id : FieldId) {cow : Cow}
    (h : alookup fs.changed_since_snapshots sidx = some cow) :
    (snapRead fs sidx id).2 =
      ⟨fs.field_states, areplace fs.changed_since_snapshots sidx
        (cowGetDefault cow id (snapshotFallback fs sidx id)).2⟩ := by
  unfold snapRead; rw [h]

theorem snapView_write (s : StoreState) (wid : FieldId) (v : Option Nat)
    (time : ExtendedTime) (sidx : Nat) (hl : snapLive s sidx) :
    snapLive (applyStoreOp s (.write wid v time)) sidx ∧
    ∀ id, snapView (applyStoreOp s (.write wid v time)) sidx id = snapView s sidx id := by
  rcases hl with ⟨hidx, hreg⟩
  have key : ∀ id,
      (snapRead (fieldsSetOpt s.fields wid v time s.next_snapshot).1 sidx id).1 =
        (snapRead s.fields sidx id).1 ∧
      (alookup (fieldsSetOpt s.fields wid v time
        s.next_snapshot).1.changed_since_snapshots sidx).isSome =
      (alookup s.fields.changed_since_snapshots sidx).isSome := by
    intro id
    cases v with
    | some value =>
      unfold fieldsSetOpt fieldsSet
      rcases hold : alookup s.fields.field_states wid with _ | old
      · apply snapView_store_update s.fields s.next_snapshot sidx wid id _ _ hidx
        · intro x hx
          rw [alookup_cons, if_neg (fun hh => hx hh.symm)]
        · exact Or.inr ⟨⟨value, time, s.next_snapshot⟩,
            by rw [alookup_cons, if_pos rfl], rfl⟩
        · rw [hold]
      · apply snapView_store_update s.fields s.next_snapshot sidx wid id _ _ hidx
        · intro x hx
          rw [alookup_areplace, if_neg hx]
        · refine Or.inr ⟨⟨value, time, s.next_snapshot⟩, ?_, rfl⟩
          rw [alookup_areplace, if_pos rfl, hold]
          rfl
        · rw [hold]
    | none =>
      unfold fieldsSetOpt fieldsRemove
      rcases hold : alookup s.fields.field_states wid with _ | old
      · apply snapView_store_update s.fields s.next_snapshot sidx wid id
          s.fields.field_states s.fields.changed_since_snapshots hidx
        · intro x hx; rfl
        · exact Or.inl hold
        · rw [hold]
      · apply snapView_store_update s.fields s.next_snapshot sidx wid id _ _ hidx
        · intro x hx
          rw [alookup_aerase, if_neg hx]
        · exact Or.inl (by rw [alookup_aerase, if_pos rfl])
        · rw [hold]
  refine ⟨⟨hidx, ?_⟩, fun id => ?_⟩
  · show (alookup (fieldsSetOpt s.fields wid v time
      s.next_snapshot).1.changed_since_snapshots sidx).isSome = true
    rw [(key wid).2]
    exact hreg
  · show (snapRead (fieldsSetOpt s.fields wid v time s.next_snapshot).1 sidx id).1 =
      (snapRead s.fields sidx id).1
    exact (key id).1

theorem snapView_snap (s : StoreState) (sidx : Nat) (hl : snapLive s sidx) :
    snapLive (applyStoreOp s .snap) sidx ∧
    ∀ id, snapView (applyStoreOp s .snap) sidx id = snapView s sidx id := by
  rcases hl with ⟨hidx, hreg⟩
  by_cases hr : (alookup s.fields.changed_since_snapshots s.next_snapshot).isSome = true
  · have hfs : (snapMake s).fields = s.fields := by
      unfold snapMake
      rw [if_pos hr]
    refine ⟨⟨?_, ?_⟩, fun id => ?_⟩
    · show sidx < s.next_snapshot + 1
      omega
    · show (alookup (snapMake s).fields.changed_since_snapshots sidx).isSome = true
      rw [hfs]
      exact hreg
    · show (snapRead (snapMake s).fields sidx id).1 = (snapRead s.fields sidx id).1
      rw [hfs]
  · have hfs : (snapMake s).fields =
        ⟨s.fields.field_states,
         (s.next_snapshot, []) :: s.fields.changed_since_snapshots⟩ := by
      unfold snapMake
      rw [if_neg hr]
    have hlk : alookup ((s.next_snapshot, ([] : Cow)) ::
        s.fields.changed_since_snapshots) sidx =
        alookup s.fields.changed_since_snapshots sidx := by
      rw [alookup_cons, if_neg (by omega)]
    refine ⟨⟨?_, ?_⟩, fun id => ?_⟩
    · show sidx < s.next_snapshot + 1
      omega
    · show (alookup (snapMake s).fields.changed_since_snapshots sidx).isSome = true
      rw [hfs]
      show (alookup ((s.next_snapshot, ([] : Cow)) ::
        s.fields.changed_since_snapshots) sidx).isSome = true
      rw [hlk]
      exact hreg
    · show (snapRead (snapMake s).fields sidx id).1 = (snapRead s.fields sidx id).1
      rw [hfs]
      cases hc : alookup s.fields.changed_since_snapshots sidx with
      | none =>
        rw [snapRead_fst_of_none id hc, snapRead_fst_of_none id (by
          show alookup ((s.next_snapshot, ([] : Cow)) ::
            s.fields.changed_since_snapshots) sidx = none
          rw [hlk]; exact hc)]
      | some cow =>
        have hc2 : alookup ((s.next_snapshot, ([] : Cow)) ::
            s.fields.changed_since_snapshots) sidx = some cow := by
          rw [hlk]; exact hc
        rw [snapRead_fst_of_reg id hc, snapRead_fst_of_reg id hc2]
        rfl

theorem snapView_read (s : StoreState) (j : Nat) (rid : FieldId) (sidx : Nat)
    (hl : snapLive s sidx) :
    snapLive (applyStoreOp s (.read j rid)) sidx ∧
    ∀ id, snapView (applyStoreOp s (.read j rid)) sidx id = snapView s sidx id := by
  rcases hl with ⟨hidx, hreg⟩
  cases hj : alookup s.fields.changed_since_snapshots j with
  | none =>
    have hfs : (snapRead s.fields j rid).2 = s.fields := snapRead_snd_of_none rid hj
    refine ⟨⟨hidx, ?_⟩, fun id => ?_⟩
    · show (alookup (snapRead s.fields j rid).2.changed_since_snapshots sidx).isSome
        = true
      rw [hfs]
      exact hreg
    · show (snapRead (snapRead s.fields j rid).2 sidx id).1 =
        (snapRead s.fields sidx id).1
      rw [hfs]
  | some cowj =>
    have hfs := snapRead_snd_of_reg rid hj
    have hlk : ∀ x, alookup (areplace s.fields.changed_since_snapshots j
        (cowGetDefault cowj rid (snapshotFallback s.fields j rid)).2) x =
        if x = j
        then some (cowGetDefault cowj rid (snapshotFallback s.fields j rid)).2
        else alookup s.fields.changed_since_snapshots x := by
      intro x
      rw [alookup_areplace]
      by_cases hx : x = j
      · rw [if_pos hx, if_pos hx, hj]
        rfl
      · rw [if_neg hx, if_neg hx]
    refine ⟨⟨hidx, ?_⟩, fun id => ?_⟩
    · show (alookup (snapRead s.fields j rid).2.changed_since_snapshots sidx).isSome
        = true
      rw [hfs]
      show (alookup (areplace s.fields.changed_since_snapshots j
        (cowGetDefault cowj rid (snapshotFallback s.fields j rid)).2) sidx).isSome
        = true
      rw [hlk sidx]
      by_cases hx : sidx = j
      · rw [if_pos hx]
        rfl
      · rw [if_neg hx]
        exact hreg
    · show (snapRead (snapRead s.fields j rid).2 sidx id).1 =
        (snapRead s.fields sidx id).1
      rw [hfs]
      by_cases hx : sidx = j
      · subst hx
        have hA : alookup ((⟨s.fields.field_states,
            areplace s.fields.changed_since_snapshots sidx
              (cowGetDefault cowj rid
                (snapshotFallback s.fields sidx rid)).2⟩ : Fields)
            |>.changed_since_snapshots) sidx =
            some (cowGetDefault cowj rid (snapshotFallback s.fields sidx rid)).2 := by
          show alookup (areplace s.fields.changed_since_snapshots sidx
            (cowGetDefault cowj rid (snapshotFallback s.fields sidx rid)).2) sidx = _
          rw [hlk sidx, if_pos rfl]
        rw [snapRead_fst_of_reg id hA, snapRead_fst_of_reg id hj]
        have hfb : snapshotFallback (⟨s.fields.field_states,
            areplace s.fields.changed_since_snapshots sidx
              (cowGetDefault cowj rid
                (snapshotFallback s.fields sidx rid)).2⟩ : Fields) sidx id =
            snapshotFallback s.fields sidx id := rfl
        rw [hfb]
        by_cases hid : id = rid
        · subst hid
          cases hcd : alookup cowj id with
          | some c =>
            rw [cgd_fst_of_some (v := c)
              (by rw [cgd_lookup_self, cgd_fst_of_some hcd]), cgd_fst_of_some hcd]
          | none =>
            cases hfb2 : snapshotFallback s.fields sidx id with
            | some w =>
              rw [cgd_fst_of_some (v := w)
                (by rw [cgd_lookup_self, cgd_fst_of_none hcd]),
                cgd_fst_of_none hcd]
            | none =>
              rw [cgd_fst_of_none
                (by rw [cgd_lookup_self, cgd_fst_of_none hcd]),
                cgd_fst_of_none hcd]
        · cases hcd : alookup cowj id with
          | some c =>
            rw [cgd_fst_of_some (v := c)
              (by rw [cgd_lookup_other hid, hcd]), cgd_fst_of_some hcd]
          | none =>
            rw [cgd_fst_of_none (by rw [cgd_lookup_other hid, hcd]),
              cgd_fst_of_none hcd]
      · have hA : alookup ((⟨s.fields.field_states,
            areplace s.fields.changed_since_snapshots j
              (cowGetDefault cowj rid
                (snapshotFallback s.fields j rid)).2⟩ : Fields)
            |>.changed_since_snapshots) sidx =
            alookup s.fields.changed_since_snapshots sidx := by
          show alookup (areplace s.fields.changed_since_snapshots j
            (cowGetDefault cowj rid (snapshotFallback s.fields j rid)).2) sidx = _
          rw [hlk sidx, if_neg hx]
        cases hc : alookup s.fields.changed_since_snapshots sidx with
        | none =>
          rw [snapRead_fst_of_none id (by rw [hA, hc]), snapRead_fst_of_none id hc]
        | some cow =>
          have hc2 := hA.trans hc
          rw [snapRead_fst_of_reg id hc2, snapRead_fst_of_reg id hc]
          have hfb : snapshotFallback (⟨s.fields.field_states,
              areplace s.fields.changed_since_snapshots j
                (cowGetDefault cowj rid
                  (snapshotFallback s.fields j rid)).2⟩ : Fields) sidx id =
              snapshotFallback s.fields sidx id := rfl
          rw [hfb]

end MemoizedFlat

namespace MemoizedFlat

theorem snapView_op (s : StoreState) (op : StoreOp) (sidx : Nat) (hl : snapLive s sidx) :
    snapLive (applyStoreOp s op) sidx ∧
    ∀ id, snapView (applyStoreOp s op) sidx id = snapView s sidx id := by
  cases op with
  | write wid v time => exact snapView_write s wid v time sidx hl
  | snap => exact snapView_snap s sidx hl
  | read j rid => exact snapView_read s j rid sidx hl

theorem snapView_ops (ops : List StoreOp) (s : StoreState) (sidx : Nat)
    (hl : snapLive s sidx) :
    snapLive (applyStoreOps s ops) sidx ∧
    ∀ id, snapView (applyStoreOps s ops) sidx id = snapView s sidx id := by
  induction ops generalizing s with
  | nil => exact ⟨hl, fun id => rfl⟩
  | cons op rest ih =>
    obtain ⟨hl2, hv⟩ := snapView_op s op sidx hl
    obtain ⟨hl3, hv2⟩ := ih _ hl2
    exact ⟨hl3, fun id => (hv2 id).trans (hv id)⟩

end MemoizedFlat

/-- C2: snapshot stability.  For every live snapshot (a registered index
below the steward's `next_snapshot`) and every subsequent sequence of
store-level operations — the writes performed by events during `step` and
`snapshot_before` catch-up, new snapshot registrations, and memoizing
reads through any snapshot (while `insert_fiat_event` / `remove_fiat_event`
never touch the store) — every read through the snapshot returns exactly
what it returned when the snapshot was current; in particular, when a
field with `first_snapshot_not_updated ≤` the snapshot's index is
overwritten or removed, `update_snapshots` has first copied the
pre-existing `(value, change_time)` into the snapshot's copy-on-write
map. -/
theorem c2_snapshot_stability :
    (∀ (ops : List MemoizedFlat.StoreOp) (s : MemoizedFlat.StoreState) (sidx : Nat),
      MemoizedFlat.snapLive s sidx →
      ∀ id, MemoizedFlat.snapView (MemoizedFlat.applyStoreOps s ops) sidx id =
        MemoizedFlat.snapView s sidx id)
  ∧ (∀ (s : MemoizedFlat.StoreState) (sidx : Nat) (wid : MemoizedFlat.FieldId)
      (old : MemoizedFlat.Field) (v : Option Nat) (time : ExtendedTime),
      MemoizedFlat.snapLive s sidx →
      alookup s.fields.field_states wid = some old →
      old.first_snapshot_not_updated ≤ sidx →
      ∃ cow2, alookup (MemoizedFlat.applyStoreOp s
          (.write wid v time)).fields.changed_since_snapshots sidx = some cow2 ∧
        (alookup cow2 wid).isSome = true) := by
  constructor
  · intro ops s sidx hl id
    exact (MemoizedFlat.snapView_ops ops s sidx hl).2 id
  · rintro s sidx wid old v time ⟨hidx, hreg⟩ hold hle
    obtain ⟨cow, hcow⟩ := Option.isSome_iff_exists.mp hreg
    have hsnaps : (MemoizedFlat.fieldsSetOpt s.fields wid v time
        s.next_snapshot).1.changed_since_snapshots =
        MemoizedFlat.updateSnapshots old wid
          s.fields.changed_since_snapshots := by
      cases v with
      | some value =>
        unfold MemoizedFlat.fieldsSetOpt MemoizedFlat.fieldsSet
        rw [hold]
      | none =>
        unfold MemoizedFlat.fieldsSetOpt MemoizedFlat.fieldsRemove
        rw [hold]
    refine ⟨(MemoizedFlat.cowGetDefault cow wid
      (some (old.data, old.last_change))).2, ?_, ?_⟩
    · show alookup (MemoizedFlat.fieldsSetOpt s.fields wid v time
        s.next_snapshot).1.changed_since_snapshots sidx = _
      rw [hsnaps, MemoizedFlat.alookup_updateSnapshots, hcow]
      simp only [Option.map_some']
      rw [if_pos hle]
    · rw [MemoizedFlat.cgd_lookup_self]
      cases hcd : alookup cow wid with
      | some c => rw [MemoizedFlat.cgd_fst_of_some hcd]; rfl
      | none => rw [MemoizedFlat.cgd_fst_of_none hcd]; rfl

/-- Witness for C2: a one-field store with one live snapshot; overwriting
the field, taking another snapshot, and reading through the old snapshot
leave its view unchanged, and the overwrite copies the old entry into its
copy-on-write map. -/
theorem c2_snapshot_stability_witness :
    (MemoizedFlat.snapView
        (MemoizedFlat.applyStoreOps
          ⟨⟨[((0, 0), ⟨5, ⟨0, 0, 0⟩, 0⟩)], [(0, [])]⟩, 1⟩
          [.write (0, 0) (some 7) ⟨1, 0, 0⟩, .snap, .read 0 (0, 0)]) 0 (0, 0) =
      MemoizedFlat.snapView ⟨⟨[((0, 0), ⟨5, ⟨0, 0, 0⟩, 0⟩)], [(0, [])]⟩, 1⟩ 0 (0, 0))
  ∧ (∃ cow2, alookup (MemoizedFlat.applyStoreOp
        ⟨⟨[((0, 0), ⟨5, ⟨0, 0, 0⟩, 0⟩)], [(0, [])]⟩, 1⟩
        (.write (0, 0) (some 7) ⟨1, 0, 0⟩)).fields.changed_since_snapshots 0 =
      some cow2 ∧ (alookup cow2 (0, 0)).isSome = true) :=
  ⟨c2_snapshot_stability.1 [.write (0, 0) (some 7) ⟨1, 0, 0⟩, .snap, .read 0 (0, 0)]
      ⟨⟨[((0, 0), ⟨5, ⟨0, 0, 0⟩, 0⟩)], [(0, [])]⟩, 1⟩ 0 (by decide) (0, 0),
   c2_snapshot_stability.2 ⟨⟨[((0, 0), ⟨5, ⟨0, 0, 0⟩, 0⟩)], [(0, [])]⟩, 1⟩ 0 (0, 0)
      ⟨5, ⟨0, 0, 0⟩, 0⟩ (some 7) ⟨1, 0, 0⟩ (by decide) (by decide) (by decide)⟩

/-- C7: snapshot read fall-through.  For a field not yet present in a
snapshot's copy-on-write map, the read consults the backing store and
treats the field as absent exactly when the backing field's
`first_snapshot_not_updated` exceeds the snapshot's index; when
`first_snapshot_not_updated ≤` the index it returns the backing store's
`(value, last-change)` pair, and the result is cached in the
copy-on-write map so later reads through the snapshot return the same
answer.  In the amortized steward, `Fields::get_for_snapshot` applies the
same `first_snapshot_not_updated` filter before returning the value in
effect just before the snapshot's time. -/
theorem c7_snapshot_read_fallthrough :
    (∀ (fs : MemoizedFlat.Fields) (sidx : Nat) (id : MemoizedFlat.FieldId)
        (cow : MemoizedFlat.Cow) (field : MemoizedFlat.Field),
      alookup fs.changed_since_snapshots sidx = some cow →
      alookup cow id = none →
      alookup fs.field_states id = some field →
      (((MemoizedFlat.snapRead fs sidx id).1 = none ↔
          field.first_snapshot_not_updated > sidx)
       ∧ (field.first_snapshot_not_updated ≤ sidx →
          (MemoizedFlat.snapRead fs sidx id).1 =
            some (field.data, field.last_change))))
  ∧ (∀ (fs : MemoizedFlat.Fields) (sidx : Nat) (id : MemoizedFlat.FieldId),
      (MemoizedFlat.snapRead (MemoizedFlat.snapRead fs sidx id).2 sidx id).1 =
        (MemoizedFlat.snapRead fs sidx id).1)
  ∧ (∀ (fs : Amortized.FieldsMap) (id : Nat) (time : Int) (index : Nat)
        (history : Amortized.FieldHistory),
      fs.lookup id = some history →
      ((history.first_snapshot_not_updated > index →
          Amortized.getForSnapshot fs id time index = none)
       ∧ (history.first_snapshot_not_updated ≤ index →
          Amortized.getForSnapshot fs id time index =
            Amortized.previousChangeForSnapshot history.changes time))) := by
  refine ⟨?_, ?_, ?_⟩
  · intro fs sidx id cow field hcow hcd hfield
    have hfb : MemoizedFlat.snapshotFallback fs sidx id =
        if field.first_snapshot_not_updated > sidx then none
        else some (field.data, field.last_change) := by
      unfold MemoizedFlat.snapshotFallback
      rw [hfield]
      rfl
    have hr : (MemoizedFlat.snapRead fs sidx id).1 =
        MemoizedFlat.snapshotFallback fs sidx id := by
      rw [MemoizedFlat.snapRead_fst_of_reg id hcow, MemoizedFlat.cgd_fst_of_none hcd]
    constructor
    · rw [hr, hfb]
      by_cases hgt : field.first_snapshot_not_updated > sidx
      · rw [if_pos hgt]
        simp [hgt]
      · rw [if_neg hgt]
        simp [hgt]
    · intro hle
      rw [hr, hfb, if_neg (by omega)]
  · intro fs sidx id
    cases hreg : alookup fs.changed_since_snapshots sidx with
    | none =>
      rw [MemoizedFlat.snapRead_snd_of_none id hreg]
    | some cow =>
      rw [MemoizedFlat.snapRead_snd_of_reg id hreg,
        MemoizedFlat.snapRead_fst_of_reg id hreg]
      have hA : alookup ((⟨fs.field_states,
          areplace fs.changed_since_snapshots sidx
            (MemoizedFlat.cowGetDefault cow id
              (MemoizedFlat.snapshotFallback fs sidx id)).2⟩ :
          MemoizedFlat.Fields).changed_since_snapshots) sidx =
          some (MemoizedFlat.cowGetDefault cow id
            (MemoizedFlat.snapshotFallback fs sidx id)).2 := by
        show alookup (areplace fs.changed_since_snapshots sidx
          (MemoizedFlat.cowGetDefault cow id
            (MemoizedFlat.snapshotFallback fs sidx id)).2) sidx = _
        rw [alookup_areplace, if_pos rfl, hreg]
        rfl
      rw [MemoizedFlat.snapRead_fst_of_reg id hA]
      cases hcd : alookup cow id with
      | some c =>
        rw [MemoizedFlat.cgd_fst_of_some (v := c)
          (by rw [MemoizedFlat.cgd_lookup_self, MemoizedFlat.cgd_fst_of_some hcd]),
          MemoizedFlat.cgd_fst_of_some hcd]
      | none =>
        cases hfb2 : MemoizedFlat.snapshotFallback fs sidx id with
        | some w =>
          rw [MemoizedFlat.cgd_fst_of_some (v := w)
            (by rw [MemoizedFlat.cgd_lookup_self, MemoizedFlat.cgd_fst_of_none hcd]),
            MemoizedFlat.cgd_fst_of_none hcd]
        | none =>
          rw [MemoizedFlat.cgd_fst_of_none
            (by rw [MemoizedFlat.cgd_lookup_self, MemoizedFlat.cgd_fst_of_none hcd]),
            MemoizedFlat.cgd_fst_of_none hcd]
          exact hfb2
  · intro fs id time index history hfind
    unfold Amortized.getForSnapshot
    rw [hfind, Option.some_bind]
    constructor
    · intro hgt
      rw [if_pos hgt]
    · intro hle
      rw [if_neg (by omega)]

/-- Witness for C7: a store holding one field stamped
`first_snapshot_not_updated = 0` read through snapshot 0 yields the
stored value; the memoized second read agrees; the amortized filter
passes a history with `first_snapshot_not_updated = 0` at index 0. -/
theorem c7_snapshot_read_fallthrough_witness :
    (MemoizedFlat.snapRead ⟨[((0, 0), ⟨5, ⟨0, 0, 0⟩, 0⟩)], [(0, [])]⟩ 0 (0, 0)).1 =
      some (5, ⟨0, 0, 0⟩) := by
  have h := ((c7_snapshot_read_fallthrough.1
    ⟨[((0, 0), ⟨5, ⟨0, 0, 0⟩, 0⟩)], [(0, [])]⟩ 0 (0, 0) [] ⟨5, ⟨0, 0, 0⟩, 0⟩
    (by decide) (by decide) (by decide)).2 (by decide))
  exact h

/-! ## Scheduler lemmas: the non-strict order, minimum selection, and the
façade state updates -/

theorem ValidSince.leChar_refl (a : ValidSince Int) : ValidSince.leChar a a := by
  cases a <;> simp [ValidSince.leChar]

theorem ValidSince.leChar_trans {a b c : ValidSince Int}
    (h1 : ValidSince.leChar a b) (h2 : ValidSince.leChar b c) :
    ValidSince.leChar a c := by
  cases a <;> cases b <;> cases c <;>
    simp [ValidSince.leChar] at * <;> omega

theorem ValidSince.leChar_of_not_ltChar {a b : ValidSince Int}
    (h : ¬ ValidSince.ltChar b a) : ValidSince.leChar a b := by
  cases a <;> cases b <;>
    simp [ValidSince.ltChar, ValidSince.leChar] at * <;> omega

theorem ValidSince.leChar_of_ltChar {a b : ValidSince Int}
    (h : ValidSince.ltChar a b) : ValidSince.leChar a b := by
  cases a <;> cases b <;>
    simp [ValidSince.ltChar, ValidSince.leChar] at * <;> omega

theorem ValidSince.cmpT_ne_gt_char (x : ValidSince Int) (t : Int) :
    ValidSince.cmpT x t ≠ .gt ↔
      (match x with
       | .TheBeginning => True
       | .Before a => a ≤ t
       | .After a => a < t) := by
  cases x <;> simp only [ValidSince.cmpT] <;>
    first
      | simp
      | (split_ifs with h <;> simp_all)

theorem ValidSince.cmpT_gt_mono {x y : ValidSince Int} {t : Int}
    (hle : ValidSince.leChar x y) (hy : ValidSince.cmpT y t ≠ .gt) :
    ValidSince.cmpT x t ≠ .gt := by
  rw [ValidSince.cmpT_ne_gt_char] at *
  cases x <;> cases y <;>
    simp only [ValidSince.leChar] at * <;> first | trivial | omega

theorem ValidSince.cmpT_after_ne_gt {a t : Int}
    (h : ValidSince.cmpT (.After a) t ≠ .gt) : a < t := by
  simp only [ValidSince.cmpT] at h
  split_ifs at h with hc
  · exact hc
  · exact absurd rfl h

namespace MemoizedFlat

theorem vsMax_ge_left (a b : ValidSince Int) :
    ValidSince.leChar a (vsMax a b) := by
  unfold vsMax
  split_ifs with h
  · exact ValidSince.leChar_refl a
  · exact ValidSince.leChar_of_not_ltChar
      (fun hc => h ((ValidSince.lt_iff_ltChar b a).mpr hc))

theorem vsMax_ge_right (a b : ValidSince Int) :
    ValidSince.leChar b (vsMax a b) := by
  unfold vsMax
  split_ifs with h
  · exact ValidSince.leChar_of_ltChar ((ValidSince.lt_iff_ltChar b a).mp h)
  · exact ValidSince.leChar_refl b

theorem vsMax_eq_or (a b : ValidSince Int) : vsMax a b = a ∨ vsMax a b = b := by
  unfold vsMax
  split_ifs
  · exact Or.inl rfl
  · exact Or.inr rfl

theorem vsMax_mono_right {a x y : ValidSince Int}
    (h : ValidSince.leChar x y) :
    ValidSince.leChar (vsMax a x) (vsMax a y) := by
  rcases vsMax_eq_or a x with hx | hx <;> rw [hx]
  · exact vsMax_ge_left a y
  · exact ValidSince.leChar_trans h (vsMax_ge_right a y)

theorem vsMax_thebeginning (a : ValidSince Int) : vsMax a .TheBeginning = a := by
  unfold vsMax
  cases a <;> simp [ValidSince.cmp]

theorem vsMax_before_after {now b : Int} (h : b < now) :
    vsMax (.Before now) (.After b) = .Before now := by
  unfold vsMax
  rw [if_pos]
  simp only [ValidSince.cmp]
  rw [if_pos h]

end MemoizedFlat

theorem ExtendedTime.base_mono {a b : ExtendedTime} (h : a ≤ b) : a.base ≤ b.base := by
  rcases ExtendedTime.le_def.mp h with h | h
  · rcases ExtendedTime.lt_def.mp h with h | ⟨h, _⟩
    · exact le_of_lt h
    · exact le_of_eq h
  · subst h; exact le_refl _

theorem btFoldl_some_acc (l : List (ExtendedTime × Nat)) (e : ExtendedTime × Nat) :
    ∃ m, l.foldl btStep (some e) = some m := by
  induction l generalizing e with
  | nil => exact ⟨e, rfl⟩
  | cons x xs ih =>
    simp only [List.foldl_cons, btStep]
    split_ifs
    · exact ih x
    · exact ih e

theorem btFirst_eq_none_iff (l : List (ExtendedTime × Nat)) :
    btFirst l = none ↔ l = [] := by
  cases l with
  | nil => simp [btFirst]
  | cons x xs =>
    simp only [btFirst, List.foldl_cons]
    have hx : btStep none x = some x := rfl
    rw [hx]
    obtain ⟨m, hm⟩ := btFoldl_some_acc xs x
    simp [hm]

theorem btFoldl_min (l : List (ExtendedTime × Nat)) (e m : ExtendedTime × Nat)
    (h : l.foldl btStep (some e) = some m) :
    (m = e ∨ m ∈ l) ∧ m.1 ≤ e.1 ∧ ∀ kv ∈ l, m.1 ≤ kv.1 := by
  induction l generalizing e with
  | nil =>
    simp only [List.foldl_nil, Option.some.injEq] at h
    subst h
    exact ⟨Or.inl rfl, le_refl _, by simp⟩
  | cons x xs ih =>
    simp only [List.foldl_cons, btStep] at h
    split_ifs at h with hx
    · obtain ⟨hmem, hle, hall⟩ := ih x h
      refine ⟨?_, le_trans hle (le_of_lt hx), ?_⟩
      · rcases hmem with h1 | h1
        · exact Or.inr (by simp [h1])
        · exact Or.inr (List.mem_cons_of_mem _ h1)
      · intro kv hkv
        rcases List.mem_cons.mp hkv with h1 | h1
        · subst h1; exact hle
        · exact hall kv h1
    · obtain ⟨hmem, hle, hall⟩ := ih e h
      refine ⟨?_, hle, ?_⟩
      · rcases hmem with h1 | h1
        · exact Or.inl h1
        · exact Or.inr (List.mem_cons_of_mem _ h1)
      · intro kv hkv
        rcases List.mem_cons.mp hkv with h1 | h1
        · subst h1; exact le_trans hle (le_of_not_lt hx)
        · exact hall kv h1

theorem btFirst_min (l : List (ExtendedTime × Nat)) (m : ExtendedTime × Nat)
    (h : btFirst l = some m) : m ∈ l ∧ ∀ kv ∈ l, m.1 ≤ kv.1 := by
  cases l with
  | nil => simp [btFirst] at h
  | cons x xs =>
    have h' : xs.foldl btStep (some x) = some m := h
    obtain ⟨hmem, hle, hall⟩ := btFoldl_min xs x m h'
    refine ⟨?_, ?_⟩
    · rcases hmem with h1 | h1
      · simp [h1]
      · exact List.mem_cons_of_mem _ h1
    · intro kv hkv
      rcases List.mem_cons.mp hkv with h1 | h1
      · subst h1; exact hle
      · exact hall kv h1

theorem etFoldl_some_acc (l : List ExtendedTime) (e : ExtendedTime) :
    ∃ m, l.foldl etStep (some e) = some m := by
  induction l generalizing e with
  | nil => exact ⟨e, rfl⟩
  | cons x xs ih =>
    simp only [List.foldl_cons, etStep]
    split_ifs
    · exact ih x
    · exact ih e

theorem etFirst_eq_none_iff (l : List ExtendedTime) :
    etFirst l = none ↔ l = [] := by
  cases l with
  | nil => simp [etFirst]
  | cons x xs =>
    simp only [etFirst, List.foldl_cons]
    have hx : etStep none x = some x := rfl
    rw [hx]
    obtain ⟨m, hm⟩ := etFoldl_some_acc xs x
    simp [hm]

theorem etFoldl_min (l : List ExtendedTime) (e m : ExtendedTime)
    (h : l.foldl etStep (some e) = some m) :
    (m = e ∨ m ∈ l) ∧ m ≤ e ∧ ∀ t ∈ l, m ≤ t := by
  induction l generalizing e with
  | nil =>
    simp only [List.foldl_nil, Option.some.injEq] at h
    subst h
    exact ⟨Or.inl rfl, le_refl _, by simp⟩
  | cons x xs ih =>
    simp only [List.foldl_cons, etStep] at h
    split_ifs at h with hx
    · obtain ⟨hmem, hle, hall⟩ := ih x h
      refine ⟨?_, le_trans hle (le_of_lt hx), ?_⟩
      · rcases hmem with h1 | h1
        · exact Or.inr (by simp [h1])
        · exact Or.inr (List.mem_cons_of_mem _ h1)
      · intro t ht
        rcases List.mem_cons.mp ht with h1 | h1
        · subst h1; exact hle
        · exact hall t h1
    · obtain ⟨hmem, hle, hall⟩ := ih e h
      refine ⟨?_, hle, ?_⟩
      · rcases hmem with h1 | h1
        · exact Or.inl h1
        · exact Or.inr (List.mem_cons_of_mem _ h1)
      · intro t ht
        rcases List.mem_cons.mp ht with h1 | h1
        · subst h1; exact le_trans hle (le_of_not_lt hx)
        · exact hall t h1

theorem etFirst_min (l : List ExtendedTime) (m : ExtendedTime)
    (h : etFirst l = some m) : m ∈ l ∧ ∀ t ∈ l, m ≤ t := by
  cases l with
  | nil => simp [etFirst] at h
  | cons x xs =>
    have h' : xs.foldl etStep (some x) = some m := h
    obtain ⟨hmem, hle, hall⟩ := etFoldl_min xs x m h'
    refine ⟨?_, ?_⟩
    · rcases hmem with h1 | h1
      · simp [h1]
      · exact List.mem_cons_of_mem _ h1
    · intro t ht
      rcases List.mem_cons.mp ht with h1 | h1
      · subst h1; exact hle
      · exact hall t h1

theorem etMaxFoldl_cases (l : List ExtendedTime) (acc : Option ExtendedTime) :
    l.foldl etMaxStep acc = acc ∨ ∃ t ∈ l, l.foldl etMaxStep acc = some t := by
  induction l generalizing acc with
  | nil => exact Or.inl rfl
  | cons x xs ih =>
    simp only [List.foldl_cons]
    rcases ih (etMaxStep acc x) with h | ⟨t, ht, h⟩
    · rw [h]
      cases acc with
      | none => exact Or.inr ⟨x, by simp, rfl⟩
      | some cur =>
        simp only [etMaxStep]
        split_ifs
        · exact Or.inr ⟨x, by simp, rfl⟩
        · exact Or.inl rfl
    · exact Or.inr ⟨t, by simp [ht], h⟩

theorem mem_areplace {κ α : Type} [DecidableEq κ] {l : List (κ × α)} {key : κ}
    {v : α} {kv : κ × α} (h : kv ∈ areplace l key v) : kv ∈ l ∨ kv.1 = key := by
  unfold areplace at h
  obtain ⟨x, hx, hfx⟩ := List.mem_map.mp h
  by_cases hk : x.1 = key
  · rw [if_pos hk] at hfx
    exact Or.inr (by rw [← hfx])
  · rw [if_neg hk] at hfx
    exact Or.inl (hfx ▸ hx)

theorem mem_aerase {κ α : Type} [DecidableEq κ] {l : List (κ × α)} {key : κ}
    {kv : κ × α} (h : kv ∈ aerase l key) : kv ∈ l := by
  unfold aerase at h
  exact (List.mem_filter.mp h).1

namespace MemoizedFlat

theorem nextEvent_min {s : Steward} {e : ExtendedTime × Nat}
    (h : nextEvent s = some e) :
    (e ∈ s.fiat_events ∨ e ∈ s.predictions_by_time) ∧
    (∀ kv ∈ s.fiat_events, e.1 ≤ kv.1) ∧
    (∀ kv ∈ s.predictions_by_time, e.1 ≤ kv.1) := by
  unfold nextEvent at h
  cases hf : btFirst s.fiat_events with
  | none =>
    have hfe : s.fiat_events = [] := (btFirst_eq_none_iff _).mp hf
    cases hp : btFirst s.predictions_by_time with
    | none => rw [hf, hp] at h; exact absurd h (by simp)
    | some p =>
      rw [hf, hp] at h
      simp only [Option.some.injEq] at h
      subst h
      obtain ⟨hmem, hmin⟩ := btFirst_min _ _ hp
      exact ⟨Or.inr hmem, by simp [hfe], hmin⟩
  | some f =>
    obtain ⟨hfmem, hfmin⟩ := btFirst_min _ _ hf
    cases hp : btFirst s.predictions_by_time with
    | none =>
      have hpe : s.predictions_by_time = [] := (btFirst_eq_none_iff _).mp hp
      rw [hf, hp] at h
      simp only [Option.some.injEq] at h
      subst h
      exact ⟨Or.inl hfmem, hfmin, by simp [hpe]⟩
    | some p =>
      obtain ⟨hpmem, hpmin⟩ := btFirst_min _ _ hp
      rw [hf, hp] at h
      dsimp only at h
      split_ifs at h with hle <;> simp only [Option.some.injEq] at h <;> subst h
      · exact ⟨Or.inl hfmem, hfmin,
          fun kv hkv => le_trans hle (hpmin kv hkv)⟩
      · exact ⟨Or.inr hpmem,
          fun kv hkv => le_trans (le_of_lt (lt_of_not_le hle)) (hfmin kv hkv), hpmin⟩

theorem nextEvent_eq_none_iff (s : Steward) :
    nextEvent s = none ↔ s.fiat_events = [] ∧ s.predictions_by_time = [] := by
  rw [← btFirst_eq_none_iff s.fiat_events, ← btFirst_eq_none_iff s.predictions_by_time]
  unfold nextEvent
  cases btFirst s.fiat_events <;> cases btFirst s.predictions_by_time <;>
    (try dsimp only) <;> (try split_ifs) <;> simp

theorem last_event_lt_fiat_time {s : Steward} {le : ExtendedTime} {t : Int}
    (hle : s.last_event = some le)
    (hguard : ¬ ValidSince.cmpT (validSince s) t = .gt) :
    le.base < t := by
  have hmono : ValidSince.cmpT (.After le.base) t ≠ .gt := by
    refine ValidSince.cmpT_gt_mono ?_ hguard
    have : validSince s = vsMax s.invalid_before (.After le.base) := by
      unfold validSince
      rw [hle]
    rw [this]
    exact vsMax_ge_right _ _
  exact ValidSince.cmpT_after_ne_gt hmono

theorem op_inv {s s' : Steward} (hInv : Inv s) (hop : Op s s') : Inv s' := by
  cases hop with
  | insertFiat t did ev =>
    unfold insertFiatEvent
    split_ifs with hguard
    · exact hInv
    · cases hbi : btInsert s.fiat_events (extendedTimeOfFiatEvent t did) ev with
      | mk l2 old =>
        have hl2 : l2 = areplace s.fiat_events (extendedTimeOfFiatEvent t did) ev ∨
            l2 = (extendedTimeOfFiatEvent t did, ev) :: s.fiat_events := by
          unfold btInsert at hbi
          cases halk : alookup s.fiat_events (extendedTimeOfFiatEvent t did) <;>
            rw [halk] at hbi <;> simp only [Prod.mk.injEq] at hbi
          · exact Or.inr hbi.1.symm
          · exact Or.inl hbi.1.symm
        have hinv2 : Inv { s with fiat_events := l2 } := by
          unfold Inv at *
          cases hlev : s.last_event with
          | none => trivial
          | some le =>
            rw [hlev] at hInv
            obtain ⟨hfi, hpr⟩ := hInv
            have hbase : le.base < t := last_event_lt_fiat_time hlev hguard
            have hnew : le ≤ extendedTimeOfFiatEvent t did := by
              refine le_of_lt (ExtendedTime.lt_def.mpr ?_)
              exact Or.inl hbase
            refine ⟨?_, hpr⟩
            intro kv hkv
            rcases hl2 with h2 | h2 <;> rw [h2] at hkv
            · rcases mem_areplace hkv with hm | hm
              · exact hfi kv hm
              · rw [hm]; exact hnew
            · rcases List.mem_cons.mp hkv with hm | hm
              · rw [hm]; exact hnew
              · exact hfi kv hm
        cases old <;> exact hinv2
  | removeFiat t did =>
    unfold removeFiatEvent
    split_ifs with hguard
    · exact hInv
    · cases halk : alookup s.fiat_events (extendedTimeOfFiatEvent t did) with
      | none => exact hInv
      | some _ =>
        unfold Inv at *
        cases hlev : s.last_event with
        | none => trivial
        | some le =>
          rw [hlev] at hInv
          exact ⟨fun kv hkv => hInv.1 kv (mem_aerase hkv), hInv.2⟩
  | stepOp newPreds hbound =>
    unfold step
    cases hne : nextEvent s with
    | none => exact hInv
    | some e =>
      obtain ⟨_, hfmin, _⟩ := nextEvent_min hne
      unfold Inv executeEvent
      refine ⟨?_, hbound e hne⟩
      intro kv hkv
      exact hfmin kv (mem_aerase hkv)
  | snapOp => exact hInv

theorem op_validSince_mono {s s' : Steward} (hInv : Inv s) (hop : Op s s') :
    ValidSince.leChar (validSince s) (validSince s') := by
  cases hop with
  | insertFiat t did ev =>
    have heq : validSince (insertFiatEvent s t did ev).2 = validSince s := by
      unfold insertFiatEvent
      split_ifs
      · rfl
      · cases hbi : btInsert s.fiat_events (extendedTimeOfFiatEvent t did) ev with
        | mk l2 old => cases old <;> rfl
    rw [heq]
    exact ValidSince.leChar_refl _
  | removeFiat t did =>
    have heq : validSince (removeFiatEvent s t did).2 = validSince s := by
      unfold removeFiatEvent
      split_ifs
      · rfl
      · cases halk : alookup s.fiat_events (extendedTimeOfFiatEvent t did) <;> rfl
    rw [heq]
    exact ValidSince.leChar_refl _
  | stepOp newPreds hbound =>
    unfold step
    cases hne : nextEvent s with
    | none => exact ValidSince.leChar_refl _
    | some e =>
      have hgoal : validSince (executeEvent s e.1 newPreds) =
          vsMax s.invalid_before (.After e.1.base) := rfl
      rw [hgoal]
      cases hlev : s.last_event with
      | none =>
        have hvs : validSince s = s.invalid_before := by
          unfold validSince
          rw [hlev, vsMax_thebeginning]
        rw [hvs]
        exact vsMax_ge_left _ _
      | some le =>
        have hvs : validSince s = vsMax s.invalid_before (.After le.base) := by
          unfold validSince
          rw [hlev]
        rw [hvs]
        refine vsMax_mono_right ?_
        obtain ⟨hmem, hfmin, hpmin⟩ := nextEvent_min hne
        unfold Inv at hInv
        rw [hlev] at hInv
        have hle2 : le ≤ e.1 := by
          rcases hmem with hm | hm
          · exact hInv.1 e hm
          · exact hInv.2 e hm
        show le.base ≤ e.1.base
        exact ExtendedTime.base_mono hle2
  | snapOp => exact ValidSince.leChar_refl _

theorem reach_inv {s s' : Steward} (hInv : Inv s) (h : Reach s s') : Inv s' := by
  induction h with
  | refl => exact hInv
  | tail _ hop ih => exact op_inv ih hop

theorem reach_validSince_mono {s s' : Steward} (hInv : Inv s) (h : Reach s s') :
    ValidSince.leChar (validSince s) (validSince s') := by
  induction h with
  | refl => exact ValidSince.leChar_refl _
  | tail hsteps hop ih =>
    exact ValidSince.leChar_trans ih (op_validSince_mono (reach_inv hInv hsteps) hop)

end MemoizedFlat

/-- C3 (refuted as stated): `insert_fiat_event` on a duplicate `(time,
distinguisher)` does return `Err(InvalidInput)`, but it does not leave the
stored fiat events unchanged — `BTreeMap::insert` has already replaced the
stored event with the new one when the `Some(_)` arm reports the error.
At the concrete state holding event `1` under `ExtendedTime (0, 0, 7)`,
inserting event `2` at the same time and distinguisher yields
`Err(InvalidInput)` while the map now stores event `2`. -/
theorem c3_fiat_insertion_contract :
    (MemoizedFlat.insertFiatEvent
        ⟨none, .TheBeginning, [(⟨0, 0, 7⟩, 1)], [], 0⟩ 0 7 2).1 =
      .error .InvalidInput ∧
    (MemoizedFlat.insertFiatEvent
        ⟨none, .TheBeginning, [(⟨0, 0, 7⟩, 1)], [], 0⟩ 0 7 2).2.fiat_events =
      [(⟨0, 0, 7⟩, 2)] ∧
    alookup (MemoizedFlat.Steward.fiat_events
        ⟨none, .TheBeginning, [(⟨0, 0, 7⟩, 1)], [], 0⟩) ⟨0, 0, 7⟩ = some 1 := by
  refine ⟨rfl, by decide, by decide⟩

/-- C4: `from_constants` has `valid_since() = TheBeginning` in both
stewards; `from_snapshot` has `valid_since() = Before(snapshot.now())` —
unconditionally in the amortized steward, and in the memoized_flat steward
whenever every entry's `last_change` base time precedes `now` (as holds
for any snapshot's entries); and across any sequence of façade calls on a
memoized_flat steward whose pending events do not precede its last
executed event, `valid_since()` never decreases. -/
theorem c4_valid_since_lifecycle :
    MemoizedFlat.validSince MemoizedFlat.fromConstants = .TheBeginning ∧
    Amortized.validSince Amortized.fromConstants = .TheBeginning ∧
    (∀ now : Int, Amortized.validSince (Amortized.fromSnapshot now) = .Before now) ∧
    (∀ (now : Int) (entries : List ExtendedTime) (ps : List (ExtendedTime × Nat)),
      (∀ t ∈ entries, t.base < now) →
      MemoizedFlat.validSince (MemoizedFlat.fromSnapshot now entries ps) =
        .Before now) ∧
    (∀ s s' : MemoizedFlat.Steward, MemoizedFlat.Inv s → MemoizedFlat.Reach s s' →
      ValidSince.leChar (MemoizedFlat.validSince s) (MemoizedFlat.validSince s')) := by
  refine ⟨by decide, rfl, fun now => rfl, ?_, ?_⟩
  · intro now entries ps hbefore
    show MemoizedFlat.vsMax (.Before now)
        (match entries.foldl etMaxStep none with
         | none => ValidSince.TheBeginning
         | some t => .After t.base) = .Before now
    rcases etMaxFoldl_cases entries none with hfold | ⟨t, ht, hfold⟩ <;> rw [hfold]
    · exact MemoizedFlat.vsMax_thebeginning _
    · exact MemoizedFlat.vsMax_before_after (hbefore t ht)
  · intro s s' hInv hreach
    exact MemoizedFlat.reach_validSince_mono hInv hreach

/-- Witness for C4: a snapshot at time `5` with one entry last changed at
base time `3` rebuilds with `valid_since() = Before 5`, and a fresh
steward's `valid_since()` does not decrease across an `insert_fiat_event`
call. -/
theorem c4_valid_since_lifecycle_witness :
    MemoizedFlat.validSince (MemoizedFlat.fromSnapshot 5 [⟨3, 0, 0⟩] []) =
      .Before 5 ∧
    ValidSince.leChar (MemoizedFlat.validSince MemoizedFlat.fromConstants)
      (MemoizedFlat.validSince
        (MemoizedFlat.insertFiatEvent MemoizedFlat.fromConstants 1 7 9).2) :=
  ⟨c4_valid_since_lifecycle.2.2.2.1 5 [⟨3, 0, 0⟩] [] (by decide),
   c4_valid_since_lifecycle.2.2.2.2 _ _ (by decide)
     (Relation.ReflTransGen.single (MemoizedFlat.Op.insertFiat _ 1 7 9))⟩

/-- C5: in the memoized_flat steward `updated_until_before()` is `None`
exactly when both the fiat-event and predicted-event maps are empty;
otherwise it is the base time of `next_event()`, which is a pending entry
no later than every pending fiat and predicted event, and `step()`
executes exactly that entry; in the amortized steward
`updated_until_before()` is `None` exactly when no event needs attention
and no prediction is missing, and otherwise it is the base time of the
smaller of the two earliest pending units. -/
theorem c5_scheduler_selection :
    (∀ s : MemoizedFlat.Steward,
      (MemoizedFlat.updatedUntilBefore s = none ↔
        s.fiat_events = [] ∧ s.predictions_by_time = []) ∧
      (MemoizedFlat.nextEvent s = none →
        ∀ ps, MemoizedFlat.step s ps = s) ∧
      (∀ e, MemoizedFlat.nextEvent s = some e →
        MemoizedFlat.updatedUntilBefore s = some e.1.base ∧
        (e ∈ s.fiat_events ∨ e ∈ s.predictions_by_time) ∧
        (∀ kv ∈ s.fiat_events, e.1 ≤ kv.1) ∧
        (∀ kv ∈ s.predictions_by_time, e.1 ≤ kv.1) ∧
        (∀ ps, MemoizedFlat.step s ps = MemoizedFlat.executeEvent s e.1 ps))) ∧
    (∀ (evs : List ExtendedTime) (preds : List (ExtendedTime × Nat)),
      (Amortized.updatedUntilBeforeA evs preds = none ↔ evs = [] ∧ preds = []) ∧
      (∀ b, Amortized.updatedUntilBeforeA evs preds = some b →
        ∃ m, (m ∈ evs ∨ ∃ kv ∈ preds, kv.1 = m) ∧ m.base = b ∧
          (∀ t ∈ evs, m ≤ t) ∧ (∀ kv ∈ preds, m ≤ kv.1))) := by
  constructor
  · intro s
    refine ⟨?_, ?_, ?_⟩
    · rw [← MemoizedFlat.nextEvent_eq_none_iff]
      unfold MemoizedFlat.updatedUntilBefore
      cases MemoizedFlat.nextEvent s <;> simp
    · intro hne ps
      unfold MemoizedFlat.step
      rw [hne]
    · intro e he
      obtain ⟨hmem, hfmin, hpmin⟩ := MemoizedFlat.nextEvent_min he
      refine ⟨?_, hmem, hfmin, hpmin, ?_⟩
      · unfold MemoizedFlat.updatedUntilBefore
        rw [he]
        rfl
      · intro ps
        unfold MemoizedFlat.step
        rw [he]
  · intro evs preds
    constructor
    · rw [← etFirst_eq_none_iff evs, ← btFirst_eq_none_iff preds]
      unfold Amortized.updatedUntilBeforeA
      cases etFirst evs <;> cases btFirst preds <;>
        (try dsimp only) <;> (try split_ifs) <;> simp
    · intro b hb
      unfold Amortized.updatedUntilBeforeA at hb
      cases hf : etFirst evs with
      | none =>
        have hevs : evs = [] := (etFirst_eq_none_iff _).mp hf
        cases hp : btFirst preds with
        | none => rw [hf, hp] at hb; exact absurd hb (by simp)
        | some p =>
          rw [hf, hp] at hb
          simp only [Option.some.injEq] at hb
          obtain ⟨hpmem, hpmin⟩ := btFirst_min _ _ hp
          exact ⟨p.1, Or.inr ⟨p, hpmem, rfl⟩, hb, by simp [hevs], hpmin⟩
      | some et =>
        obtain ⟨hemem, hemin⟩ := etFirst_min _ _ hf
        cases hp : btFirst preds with
        | none =>
          have hpreds : preds = [] := (btFirst_eq_none_iff _).mp hp
          rw [hf, hp] at hb
          simp only [Option.some.injEq] at hb
          exact ⟨et, Or.inl hemem, hb, hemin, by simp [hpreds]⟩
        | some p =>
          obtain ⟨hpmem, hpmin⟩ := btFirst_min _ _ hp
          rw [hf, hp] at hb
          dsimp only at hb
          split_ifs at hb with hle <;> simp only [Option.some.injEq] at hb
          · exact ⟨et, Or.inl hemem, hb, hemin,
              fun kv hkv => le_trans hle (hpmin kv hkv)⟩
          · exact ⟨p.1, Or.inr ⟨p, hpmem, rfl⟩, hb,
              fun t ht => le_trans (le_of_lt (lt_of_not_le hle)) (hemin t ht), hpmin⟩

/-- Witness for C5: with one fiat event at `ExtendedTime (2, 0, 1)` and
one predicted event at `ExtendedTime (3, 0, 0)`, `updated_until_before()`
is `Some 2` and `step()` executes the fiat event. -/
theorem c5_scheduler_selection_witness :
    MemoizedFlat.updatedUntilBefore
      ⟨none, .TheBeginning, [(⟨2, 0, 1⟩, 5)], [(⟨3, 0, 0⟩, 6)], 0⟩ = some 2 ∧
    MemoizedFlat.step
      ⟨none, .TheBeginning, [(⟨2, 0, 1⟩, 5)], [(⟨3, 0, 0⟩, 6)], 0⟩ [] =
      MemoizedFlat.executeEvent
        ⟨none, .TheBeginning, [(⟨2, 0, 1⟩, 5)], [(⟨3, 0, 0⟩, 6)], 0⟩ ⟨2, 0, 1⟩ [] := by
  have h := (c5_scheduler_selection.1
      ⟨none, .TheBeginning, [(⟨2, 0, 1⟩, 5)], [(⟨3, 0, 0⟩, 6)], 0⟩).2.2
      (⟨2, 0, 1⟩, 5) (by decide)
  exact ⟨h.1, h.2.2.2.2 []⟩

theorem mem_hsInsert {α : Type} [DecidableEq α] (acc : List α) (y x : α) :
    x ∈ hsInsert acc y ↔ x ∈ acc ∨ x = y := by
  unfold hsInsert
  split_ifs with hy
  · constructor
    · exact fun h => Or.inl h
    · rintro (h | rfl)
      · exact h
      · exact hy
  · rw [List.mem_cons]
    tauto

theorem mem_foldl_hsInsert {α : Type} [DecidableEq α] (l acc : List α) (x : α) :
    x ∈ l.foldl hsInsert acc ↔ x ∈ acc ∨ x ∈ l := by
  induction l generalizing acc with
  | nil => simp
  | cons y ys ih =>
    rw [List.foldl_cons, ih, mem_hsInsert, List.mem_cons]
    tauto

theorem fieldsSetOpt_some_existing {fs : MemoizedFlat.Fields}
    {id : MemoizedFlat.FieldId} {v : Nat} {time : ExtendedTime} {ns : Nat}
    {f : MemoizedFlat.Field} (hf : alookup fs.field_states id = some f) :
    MemoizedFlat.fieldsSetOpt fs id (some v) time ns =
      (⟨areplace fs.field_states id ⟨v, time, ns⟩,
        MemoizedFlat.updateSnapshots f id fs.changed_since_snapshots⟩, false) := by
  unfold MemoizedFlat.fieldsSetOpt MemoizedFlat.fieldsSet
  rw [hf]

theorem mutatorSet_existing_eq {ms : MemoizedFlat.MutatorState}
    {pbc : List (Nat × List Nat)} {row col v : Nat} {now : ExtendedTime}
    {f : MemoizedFlat.Field}
    (hf : alookup ms.fields.field_states (row, col) = some f) :
    MemoizedFlat.mutatorSet ms pbc row col (some v) now =
      (match alookup ms.prediction_dependencies (row, col) with
       | none =>
         { ms with fields :=
             ⟨areplace ms.fields.field_states (row, col) ⟨v, now, ms.next_snapshot⟩,
              MemoizedFlat.updateSnapshots f (row, col)
                ms.fields.changed_since_snapshots⟩ }
       | some deps =>
         { ms with
           fields :=
             ⟨areplace ms.fields.field_states (row, col) ⟨v, now, ms.next_snapshot⟩,
              MemoizedFlat.updateSnapshots f (row, col)
                ms.fields.changed_since_snapshots⟩,
           predictions_needed := deps.foldl hsInsert ms.predictions_needed,
           prediction_dependencies :=
             aerase ms.prediction_dependencies (row, col) }) := by
  unfold MemoizedFlat.mutatorSet
  dsimp only
  rw [fieldsSetOpt_some_existing hf]
  rfl

/-- C8 (amended): a write of a value equal to the field's current value —
with the field existing before and after — is still recorded against the
field (its `last_change` becomes the event's time and the displaced value
is offered to live snapshots), and it skips the existence-change path
(`existent_fields` and the column's watching predictors are untouched);
but the predictions registered in `prediction_dependencies` as depending
on the field do NOT remain valid: `Mutator::set` unconditionally moves
every one of them into `predictions_needed` — they will be re-made — and
drops the dependency entry.  `predictions_needed` gains exactly those
registered dependents. -/
theorem c8_equal_value_writes
    (ms : MemoizedFlat.MutatorState) (pbc : List (Nat × List Nat))
    (row col v : Nat) (now : ExtendedTime) (f : MemoizedFlat.Field)
    (hf : alookup ms.fields.field_states (row, col) = some f)
    (hv : f.data = v) :
    (MemoizedFlat.mutatorSet ms pbc row col (some v) now).existent_fields =
      ms.existent_fields ∧
    alookup (MemoizedFlat.mutatorSet ms pbc row col
        (some v) now).fields.field_states (row, col) =
      some ⟨v, now, ms.next_snapshot⟩ ∧
    (∀ p : Nat × Nat,
      p ∈ (MemoizedFlat.mutatorSet ms pbc row col (some v) now).predictions_needed ↔
        (p ∈ ms.predictions_needed ∨
         ∃ deps, alookup ms.prediction_dependencies (row, col) = some deps ∧
           p ∈ deps)) ∧
    alookup (MemoizedFlat.mutatorSet ms pbc row col
        (some v) now).prediction_dependencies (row, col) = none := by
  rw [mutatorSet_existing_eq hf]
  cases hdeps : alookup ms.prediction_dependencies (row, col) with
  | none =>
    refine ⟨rfl, ?_, ?_, hdeps⟩
    · rw [alookup_areplace, if_pos rfl, hf]
      rfl
    · intro p
      simp [hdeps]
  | some deps =>
    refine ⟨rfl, ?_, ?_, ?_⟩
    · rw [alookup_areplace, if_pos rfl, hf]
      rfl
    · intro p
      rw [mem_foldl_hsInsert]
      constructor
      · rintro (h | h)
        · exact Or.inl h
        · exact Or.inr ⟨deps, rfl, h⟩
      · rintro (h | ⟨deps2, hd2, h⟩)
        · exact Or.inl h
        · rw [Option.some.injEq] at hd2
          exact Or.inr (hd2 ▸ h)
    · rw [alookup_aerase, if_pos rfl]

/-- Witness for C8: one field `(1, 2)` holding value `5`, one prediction
`(1, 9)` registered as depending on it; an equal-value write of `5` leaves
`existent_fields` alone, re-stamps the field at the write time, and moves
the dependent prediction into `predictions_needed`. -/
theorem c8_equal_value_writes_witness :
    (MemoizedFlat.mutatorSet
        ⟨⟨[((1, 2), ⟨5, ⟨0, 0, 0⟩, 0⟩)], []⟩, [], [((1, 2), [(1, 9)])], [(1, 2)], 0⟩
        [] 1 2 (some 5) ⟨1, 0, 0⟩).existent_fields = [(1, 2)] ∧
    ((1, 9) ∈ (MemoizedFlat.mutatorSet
        ⟨⟨[((1, 2), ⟨5, ⟨0, 0, 0⟩, 0⟩)], []⟩, [], [((1, 2), [(1, 9)])], [(1, 2)], 0⟩
        [] 1 2 (some 5) ⟨1, 0, 0⟩).predictions_needed ↔
      ((1, 9) ∈ ([] : List (Nat × Nat)) ∨
       ∃ deps, alookup [((1, 2), [(1, 9)])] ((1 : Nat), (2 : Nat)) = some deps ∧
         (1, 9) ∈ deps)) := by
  have h := c8_equal_value_writes
    ⟨⟨[((1, 2), ⟨5, ⟨0, 0, 0⟩, 0⟩)], []⟩, [], [((1, 2), [(1, 9)])], [(1, 2)], 0⟩
    [] 1 2 5 ⟨1, 0, 0⟩ ⟨5, ⟨0, 0, 0⟩, 0⟩ (by decide) rfl
  exact ⟨h.1, h.2.2.1 (1, 9)⟩

/-- C8 original reading refuted: at the same concrete state, the original
claim asserts the dependent prediction is not re-made, yet after the
equal-value write `predictions_needed` contains it. -/
theorem c8_equal_value_writes_counterexample :
    (1, 9) ∈ (MemoizedFlat.mutatorSet
        ⟨⟨[((1, 2), ⟨5, ⟨0, 0, 0⟩, 0⟩)], []⟩, [], [((1, 2), [(1, 9)])], [(1, 2)], 0⟩
        [] 1 2 (some 5) ⟨1, 0, 0⟩).predictions_needed ∧
    alookup (MemoizedFlat.mutatorSet
        ⟨⟨[((1, 2), ⟨5, ⟨0, 0, 0⟩, 0⟩)], []⟩, [], [((1, 2), [(1, 9)])], [(1, 2)], 0⟩
        [] 1 2 (some 5) ⟨1, 0, 0⟩).prediction_dependencies ((1 : Nat), (2 : Nat)) =
      none := by
  refine ⟨by decide, by decide⟩
